import Mathlib

/-!
# Verification of the Traffic-Equilibrium core

Shallow embedding of the repository's core, and proofs of the frozen
claims about it.

* `Sandbox` embeds `src/graphdata/graph_model.py`'s expression sandbox
  (`compile_cost_expr` and the compiled `cost` closure).  Python
  expression syntax is embedded as the inductive `PyExpr`, whose
  constructors mirror the `ast` node classes the source whitelists or
  rejects; Python numbers are modelled as exact rationals (`ℚ`),
  abstracting IEEE-754 rounding.  The transcendental functions of
  `SAFE_MATH` (`sqrt`, `log`, ...) have no rational realisation, so
  evaluation is parameterised by a `MathInterp` giving them (and the
  constants `pi`, `e`) an interpretation; no claim depends on their
  values.
* `GraphModel` embeds the `TrafficGraph` container (edge attributes
  `func_expr`, `cost_func`, `flow` and the `set_edge_expr` operation).
* `Algorithms` embeds `src/algo/algorithms.py` (`frank_wolfe_assignment`
  with its inner `costs_at`, `aon`, golden-section line search, and
  `compute_od_travel_times`).
-/

namespace Sandbox

/-- Binary-operator node kinds (`ast.Add`, `ast.Sub`, ...).  The first six
are whitelisted by `compile_cost_expr`; the rest are Python operator nodes
outside the whitelist (e.g. `ast.FloorDiv` for `//`). -/
inductive BinOpK where
  | add | sub | mult | div | pow | mod
  | floordiv | bitand | bitor | bitxor | lshift | rshift
deriving DecidableEq, Repr

/-- Unary-operator node kinds.  `usub`/`uadd` are whitelisted
(`ast.USub`, `ast.UAdd`); `notK`/`invert` are not. -/
inductive UnOpK where
  | usub | uadd | notK | invert
deriving DecidableEq, Repr

/-- Literal constants (`ast.Constant`).  In Python ≥ 3.8 every literal —
numbers, strings, booleans, `None` — parses to an `ast.Constant` node. -/
inductive PyConst where
  | num (q : ℚ)
  | str (s : String)
  | bool (b : Bool)
  | noneC
deriving DecidableEq, Repr

mutual
/-- Python expression AST (`mode='eval'` body).  The first six
constructors are the node kinds `compile_cost_expr` whitelists
(`Constant`/`Num`, `Name`, `BinOp`, `UnaryOp`, `Call`, `Tuple`); the
remaining constructors model representative disallowed node kinds
(`Attribute`, `Subscript`, `Lambda`, `Compare`, `BoolOp`, `IfExp`,
`NamedExpr`, `List`, `ListComp`). -/
inductive PyExpr where
  | const (c : PyConst)
  | name (id : String)
  | binop (op : BinOpK) (l r : PyExpr)
  | unop (op : UnOpK) (a : PyExpr)
  | call (fn : PyExpr) (args : PyArgs)
  | tup (elts : PyArgs)
  | attrAccess (v : PyExpr) (attrName : String)
  | subscriptE (v idx : PyExpr)
  | lam (params : List String) (body : PyExpr)
  | compareE (l r : PyExpr)
  | boolOpE (l r : PyExpr)
  | ifExp (c t f : PyExpr)
  | namedExpr (target : String) (v : PyExpr)
  | listLit (elts : PyArgs)
  | listComp (elt : PyExpr) (target : String) (iter : PyExpr)

/-- A list of argument/element expressions (kept as a mutual inductive so
that structural recursion and induction over `PyExpr` stay simple). -/
inductive PyArgs where
  | nil
  | cons (hd : PyExpr) (tl : PyArgs)
end

/-- The keys of `SAFE_MATH` in `graph_model.py`. -/
def safeNames : List String :=
  ["sqrt", "log", "exp", "sin", "cos", "tan", "abs", "min", "max", "pi", "e"]

/-- Python class name of a whitelisted-or-not binary operator node, for
operators outside the whitelist (`none` means whitelisted). -/
def badBinOpName : BinOpK → Option String
  | .floordiv => some "FloorDiv"
  | .bitand => some "BitAnd"
  | .bitor => some "BitOr"
  | .bitxor => some "BitXor"
  | .lshift => some "LShift"
  | .rshift => some "RShift"
  | _ => none

/-- Python class name of a unary operator node outside the whitelist. -/
def badUnOpName : UnOpK → Option String
  | .notK => some "Not"
  | .invert => some "Invert"
  | _ => none

/-- Python class name of a disallowed expression node kind (`none` for
the whitelisted kinds). -/
def badKindName : PyExpr → Option String
  | .attrAccess _ _ => some "Attribute"
  | .subscriptE _ _ => some "Subscript"
  | .lam _ _ => some "Lambda"
  | .compareE _ _ => some "Compare"
  | .boolOpE _ _ => some "BoolOp"
  | .ifExp _ _ _ => some "IfExp"
  | .namedExpr _ _ => some "NamedExpr"
  | .listLit _ => some "List"
  | .listComp _ _ _ => some "ListComp"
  | _ => none

/-- The message `compile_cost_expr` formats for a disallowed node kind. -/
def disallowedMsg (kind : String) : String :=
  "Disallowed expression element: " ++ kind

/-- The message `compile_cost_expr` formats for an unknown name. -/
def unknownNameMsg (n : String) : String :=
  "Unknown name: " ++ n

/-- First error of two optional errors. -/
def firstErr : Option String → Option String → Option String
  | some m, _ => some m
  | none, r => r

mutual
/-- The whitelist check of `compile_cost_expr` (graph_model.py lines
61–66): walk every node; raise `UnsafeExpression` on a node kind outside
`allowed_nodes`, or on a `Name` that is neither `f` nor a `SAFE_MATH`
key.  The source walks in `ast.walk` (BFS) order; this model checks in
structural (DFS) order — which offense is reported first may differ, but
an offense is reported iff one exists, and the reported message always
names an offending node kind or name occurring in the expression. -/
def checkExpr : PyExpr → Option String
  | .const _ => none
  | .name id =>
      if id = "f" ∨ id ∈ safeNames then none else some (unknownNameMsg id)
  | .binop op l r =>
      match badBinOpName op with
      | some k => some (disallowedMsg k)
      | none => firstErr (checkExpr l) (checkExpr r)
  | .unop op a =>
      match badUnOpName op with
      | some k => some (disallowedMsg k)
      | none => checkExpr a
  | .call fn args => firstErr (checkExpr fn) (checkArgs args)
  | .tup elts => checkArgs elts
  | e => (badKindName e).map disallowedMsg

/-- The whitelist check over an argument/element list. -/
def checkArgs : PyArgs → Option String
  | .nil => none
  | .cons hd tl => firstErr (checkExpr hd) (checkArgs tl)
end

mutual
/-- Every offense message in the expression, in structural order:
`disallowedMsg` for each node kind outside the whitelist and
`unknownNameMsg` for each name that is neither `f` nor a `SAFE_MATH`
key.  `checkExpr` reports the first of these (and for a disallowed
compound node stops there, as the source raises before walking on). -/
def offenses : PyExpr → List String
  | .const _ => []
  | .name id =>
      if id = "f" ∨ id ∈ safeNames then [] else [unknownNameMsg id]
  | .binop op l r =>
      (match badBinOpName op with
       | some k => [disallowedMsg k]
       | none => []) ++ offenses l ++ offenses r
  | .unop op a =>
      (match badUnOpName op with
       | some k => [disallowedMsg k]
       | none => []) ++ offenses a
  | .call fn args => offenses fn ++ offensesArgs args
  | .tup elts => offensesArgs elts
  | e => ((badKindName e).map disallowedMsg).toList

/-- Offense messages of an argument/element list. -/
def offensesArgs : PyArgs → List String
  | .nil => []
  | .cons hd tl => offenses hd ++ offensesArgs tl
end

/-- Evaluation-time error classes other than a name lookup failure:
`typeE` models Python `TypeError`, `zeroDiv` models `ZeroDivisionError`,
`domainE` models `ValueError: math domain error`, `valueE` other
`ValueError`s, and `unsupported` marks Python behaviour outside this
model (string repetition, two-argument `log`, iteration over strings,
comparison of tuples inside `min`/`max`, and the disallowed node kinds
that `checkExpr` makes unreachable). -/
inductive ArithErr where
  | typeE | zeroDiv | domainE | valueE | unsupported
deriving DecidableEq, Repr

/-- An error raised while evaluating a compiled expression: either a
`NameError` (impossible after a successful `checkExpr` — claim C3) or an
arithmetic/type error. -/
inductive EvalErr where
  | nameErr (n : String)
  | arith (a : ArithErr)
deriving DecidableEq, Repr

/-- Python runtime values arising from the whitelisted constructs. -/
inductive PyVal where
  | num (q : ℚ)
  | str (s : String)
  | bool (b : Bool)
  | noneV
  | tup (vs : List PyVal)
  | builtin (n : String)

/-- Interpretation of the transcendental `SAFE_MATH` functions and the
constants `pi` and `e`, which have no rational realisation.  Their error
type excludes `nameErr`, reflecting that `math.sqrt` etc. can raise
`ValueError`/`OverflowError` but never `NameError`. -/
structure MathInterp where
  sqrtI : ℚ → Except ArithErr ℚ
  logI : ℚ → Except ArithErr ℚ
  expI : ℚ → Except ArithErr ℚ
  sinI : ℚ → Except ArithErr ℚ
  cosI : ℚ → Except ArithErr ℚ
  tanI : ℚ → Except ArithErr ℚ
  rpowI : ℚ → ℚ → Except ArithErr ℚ
  piV : ℚ
  eV : ℚ

/-- An arbitrary concrete interpretation, used only to instantiate
theorems that hold for every `MathInterp`. -/
def refInterp : MathInterp where
  sqrtI := fun q => if q < 0 then .error .domainE else .ok 0
  logI := fun q => if q ≤ 0 then .error .domainE else .ok 0
  expI := fun _ => .ok 0
  sinI := fun _ => .ok 0
  cosI := fun _ => .ok 0
  tanI := fun _ => .ok 0
  rpowI := fun _ _ => .ok 0
  piV := 0
  eV := 0

/-- Lift an interpretation result into an evaluation result. -/
def liftArith : Except ArithErr ℚ → Except EvalErr PyVal
  | .ok q => .ok (.num q)
  | .error a => .error (.arith a)

/-- Numeric view of a value: Python arithmetic treats `bool` as an
integer (`True + True == 2`). -/
def toNum : PyVal → Option ℚ
  | .num q => some q
  | .bool b => some (if b then 1 else 0)
  | _ => none

/-- Python binary-operator semantics on the values the whitelisted
constructs can produce.  Numeric `%` follows Python float `%`
(`a % b = a - b*floor(a/b)`); `**` with an integer exponent is exact,
with a non-integer exponent it defers to the interpretation.  `+` also
concatenates two strings or two tuples; mixed-type arithmetic raises
`TypeError` as in Python. -/
def applyBin (I : MathInterp) (op : BinOpK) (v1 v2 : PyVal) :
    Except EvalErr PyVal :=
  match toNum v1, toNum v2 with
  | some a, some b =>
    match op with
    | .add => .ok (.num (a + b))
    | .sub => .ok (.num (a - b))
    | .mult => .ok (.num (a * b))
    | .div => if b = 0 then .error (.arith .zeroDiv) else .ok (.num (a / b))
    | .mod =>
        if b = 0 then .error (.arith .zeroDiv)
        else .ok (.num (a - b * ((a / b).floor : ℚ)))
    | .pow =>
        if b.den = 1 then
          if a = 0 ∧ b.num < 0 then .error (.arith .zeroDiv)
          else .ok (.num (a ^ b.num))
        else liftArith (I.rpowI a b)
    | _ => .error (.arith .unsupported)
  | _, _ =>
    match op, v1, v2 with
    | .add, .str s1, .str s2 => .ok (.str (s1 ++ s2))
    | .add, .tup t1, .tup t2 => .ok (.tup (t1 ++ t2))
    | .mult, .str _, _ => .error (.arith .unsupported)
    | .mult, _, .str _ => .error (.arith .unsupported)
    | .mult, .tup _, _ => .error (.arith .unsupported)
    | .mult, _, .tup _ => .error (.arith .unsupported)
    | _, _, _ => .error (.arith .typeE)

/-- Python unary-operator semantics (`-x`, `+x`). -/
def applyUn (op : UnOpK) (v : PyVal) : Except EvalErr PyVal :=
  match op with
  | .usub => match toNum v with
    | some a => .ok (.num (-a))
    | none => .error (.arith .typeE)
  | .uadd => match toNum v with
    | some a => .ok (.num a)
    | none => .error (.arith .typeE)
  | _ => .error (.arith .unsupported)

/-- Fold a nonempty all-numeric list for `min`/`max`. -/
def foldNum (f : ℚ → ℚ → ℚ) : ℚ → List ℚ → ℚ
  | acc, [] => acc
  | acc, x :: xs => foldNum f (f acc x) xs

/-- Numeric views of a list of values, if all of them are numeric. -/
def toNums : List PyVal → Option (List ℚ)
  | [] => some []
  | v :: vs => do pure ((← toNum v) :: (← toNums vs))

/-- Calling a `SAFE_MATH` function: one numeric argument for the `math`
functions and `abs`; `min`/`max` over two-or-more numeric arguments or a
single nonempty numeric tuple (an empty tuple raises `ValueError`, a
non-iterable single argument `TypeError`, exactly as Python).  Calling a
non-function value raises `TypeError` (e.g. `f(2)` where `f` is a
float). -/
def applyCall (I : MathInterp) (fv : PyVal) (args : List PyVal) :
    Except EvalErr PyVal :=
  match fv with
  | .builtin n =>
    match n, args with
    | "abs", [v] => match toNum v with
      | some a => .ok (.num |a|)
      | none => .error (.arith .typeE)
    | "sqrt", [v] => match toNum v with
      | some a => liftArith (I.sqrtI a)
      | none => .error (.arith .typeE)
    | "log", [v] => match toNum v with
      | some a => liftArith (I.logI a)
      | none => .error (.arith .typeE)
    | "exp", [v] => match toNum v with
      | some a => liftArith (I.expI a)
      | none => .error (.arith .typeE)
    | "sin", [v] => match toNum v with
      | some a => liftArith (I.sinI a)
      | none => .error (.arith .typeE)
    | "cos", [v] => match toNum v with
      | some a => liftArith (I.cosI a)
      | none => .error (.arith .typeE)
    | "tan", [v] => match toNum v with
      | some a => liftArith (I.tanI a)
      | none => .error (.arith .typeE)
    | "min", [.tup vs] => match toNums vs with
      | some [] => .error (.arith .valueE)
      | some (x :: xs) => .ok (.num (foldNum min x xs))
      | none => .error (.arith .unsupported)
    | "min", [_] => .error (.arith .typeE)
    | "min", (v :: vs) => match toNums (v :: vs) with
      | some (x :: xs) => .ok (.num (foldNum min x xs))
      | _ => .error (.arith .unsupported)
    | "max", [.tup vs] => match toNums vs with
      | some [] => .error (.arith .valueE)
      | some (x :: xs) => .ok (.num (foldNum max x xs))
      | none => .error (.arith .unsupported)
    | "max", [_] => .error (.arith .typeE)
    | "max", (v :: vs) => match toNums (v :: vs) with
      | some (x :: xs) => .ok (.num (foldNum max x xs))
      | _ => .error (.arith .unsupported)
    | _, _ => .error (.arith .typeE)
  | _ => .error (.arith .typeE)

mutual
/-- The evaluation performed by the compiled `cost` closure
(graph_model.py lines 70–74): `eval(code, ..., local_ns)` with `f` bound
to the flow value and `SAFE_MATH` in scope.  A name outside that scope
raises `NameError` (modelled by `.nameErr`); the disallowed node kinds —
unreachable after `checkExpr` — evaluate to the `unsupported` marker. -/
def evalE (I : MathInterp) (fv : ℚ) : PyExpr → Except EvalErr PyVal
  | .const (.num q) => .ok (.num q)
  | .const (.str s) => .ok (.str s)
  | .const (.bool b) => .ok (.bool b)
  | .const .noneC => .ok .noneV
  | .name id =>
      if id = "f" then .ok (.num fv)
      else if id = "pi" then .ok (.num I.piV)
      else if id = "e" then .ok (.num I.eV)
      else if id ∈ safeNames then .ok (.builtin id)
      else .error (.nameErr id)
  | .binop op l r => do applyBin I op (← evalE I fv l) (← evalE I fv r)
  | .unop op a => do applyUn op (← evalE I fv a)
  | .call fn args => do applyCall I (← evalE I fv fn) (← evalArgs I fv args)
  | .tup elts => do pure (.tup (← evalArgs I fv elts))
  | _ => .error (.arith .unsupported)

/-- Evaluate an argument/element list left to right. -/
def evalArgs (I : MathInterp) (fv : ℚ) : PyArgs → Except EvalErr (List PyVal)
  | .nil => .ok []
  | .cons hd tl => do pure ((← evalE I fv hd) :: (← evalArgs I fv tl))
end

/-- The trailing `float(val)` conversion in the `cost` closure:
`float` of a number or bool succeeds; of a string raises `ValueError`
(numeric strings, which Python would convert, are not modelled); of
`None`, a tuple or a function raises `TypeError`. -/
def pyFloat : PyVal → Except EvalErr ℚ
  | .num q => .ok q
  | .bool b => .ok (if b then 1 else 0)
  | .str _ => .error (.arith .valueE)
  | _ => .error (.arith .typeE)

/-- The compiled cost function `cost(f)` (graph_model.py lines 70–74):
evaluate the expression at `f`, then convert with `float`. -/
def cost (I : MathInterp) (e : PyExpr) (fv : ℚ) : Except EvalErr ℚ := do
  pyFloat (← evalE I fv e)

/-- `compile_cost_expr` after parsing (graph_model.py lines 53–76): run
the whitelist check; on an offense raise `UnsafeExpression` with its
message, otherwise return the compiled cost function.  (The `None`/blank
preprocessing of lines 47–51 acts on the raw string and is modelled by
`preprocessInput` below; parsing itself — which turns the concrete
strings of the claims into the `PyExpr` constants below — is Python's
`ast.parse`.) -/
def compile_cost_expr (I : MathInterp) (e : PyExpr) :
    Except String (ℚ → Except EvalErr ℚ) :=
  match checkExpr e with
  | some m => .error m
  | none => .ok (cost I e)

/-- Python's default `str.strip` whitespace set. -/
def pyWhite : List Char := [' ', '\t', '\n', '\r', '\x0b', '\x0c']

/-- Python `str.strip()` with no argument. -/
def pyStrip (s : String) : String :=
  let l := (s.data.dropWhile (· ∈ pyWhite)).reverse
  String.mk ((l.dropWhile (· ∈ pyWhite)).reverse)

/-- The input preprocessing of `compile_cost_expr` (lines 47–51):
`None` becomes `""`, the string is stripped, and a blank result is
replaced by `"1.0"`. -/
def preprocessInput (s : Option String) : String :=
  let t := pyStrip (s.getD "")
  if t = "" then "1.0" else t

/-- Does the result hold a value? -/
def isOkE {ε α : Type} : Except ε α → Bool
  | .ok _ => true
  | .error _ => false

/-- Python parse of `"1 + 0.1*f"` (the literal `0.1` idealised as the
rational 1/10). -/
def exprOnePlusTenthF : PyExpr :=
  .binop .add (.const (.num 1))
    (.binop .mult (.const (.num (1/10))) (.name "f"))

/-- Python parse of `"1.0"`. -/
def exprOne : PyExpr := .const (.num 1)

/-- Python parse of `"__import__('os')"`: a `Call` whose function is the
name `__import__` — in Python ≥ 3.8 the string argument is a `Constant`
node, which the whitelist admits, so the rejection comes from the
name check. -/
def exprImportOs : PyExpr :=
  .call (.name "__import__") (.cons (.const (.str "os")) .nil)

/-- Python parse of `"f.__class__"`: an `Attribute` node. -/
def exprFClass : PyExpr := .attrAccess (.name "f") "__class__"

/-- Python parse of `"open('x')"`. -/
def exprOpenX : PyExpr :=
  .call (.name "open") (.cons (.const (.str "x")) .nil)

/-- Python parse of the string-literal expression `"'x'"`: a single
`Constant` node holding a string. -/
def exprStrX : PyExpr := .const (.str "x")

/-- Python parse of `"1/f"`. -/
def exprOneDivF : PyExpr := .binop .div (.const (.num 1)) (.name "f")

end Sandbox

namespace GraphModel

open Sandbox

/-- The attribute dictionary a `TrafficGraph` edge carries
(graph_model.py line 105): the expression (stored here as its parse
rather than its source text), the compiled cost function, and the
current flow. -/
structure EdgeData where
  func_expr : PyExpr
  cost_func : ℚ → Except EvalErr ℚ
  flow : ℚ

/-- The `TrafficGraph` container: the (insertion-ordered) edge list of
the underlying `networkx.DiGraph` plus each edge's attributes.  `data`
is total for simplicity; it is only meaningful on members of `edges`. -/
structure TrafficGraph where
  edges : List (ℕ × ℕ)
  data : ℕ × ℕ → EdgeData

/-- `TrafficGraph.set_edge_expr` (graph_model.py lines 107–113): compile
the new expression first — a compilation failure raises
`UnsafeExpression` before any edge attribute has been written — then
overwrite only `func_expr` and `cost_func` of the edge `(u, v)`. -/
def set_edge_expr (I : MathInterp) (g : TrafficGraph) (u v : ℕ)
    (e : PyExpr) : Except String TrafficGraph :=
  match compile_cost_expr I e with
  | .error m => .error m
  | .ok cf =>
      .ok { g with
            data := fun p =>
              if p = (u, v) then
                { g.data p with func_expr := e, cost_func := cf }
              else g.data p }

end GraphModel

namespace Algorithms

/-- The view of the network that `frank_wolfe_assignment` uses: the edge
list (in `list(G.edges())` order), an arbitrary total cost function per
edge abstracting `tgraph.get_cost(u, v, flow=...)`, and the stored flow
per edge.  (`get_cost` asks the compiled sandbox function for its value;
the solver treats it as a black-box callable, which is what the
abstraction records.) -/
structure Net where
  edges : List (ℕ × ℕ)
  cost : ℕ × ℕ → ℚ → ℚ
  flow : ℕ × ℕ → ℚ

/-- `TrafficGraph.reset_flows` (graph_model.py lines 127–129). -/
def reset_flows (net : Net) : Net := { net with flow := fun _ => 0 }

/-- `TrafficGraph.set_flow` (graph_model.py lines 115–116). -/
def set_flow (net : Net) (u v : ℕ) (q : ℚ) : Net :=
  { net with flow := fun p => if p = (u, v) then q else net.flow p }

/-- The all-zero flow vector `np.zeros(m)`. -/
def zeros (m : ℕ) : List ℚ := List.replicate m 0

/-- The inner `costs_at` of `frank_wolfe_assignment` (algorithms.py
lines 25–29): the cost of each edge evaluated at the trial vector's
corresponding component. -/
def costs_at (net : Net) (f : List ℚ) : List ℚ :=
  List.zipWith (fun e fv => net.cost e fv) net.edges f

/-- `numpy` vector subtraction. -/
def vsub : List ℚ → List ℚ → List ℚ := List.zipWith (· - ·)

/-- `numpy` vector addition. -/
def vadd : List ℚ → List ℚ → List ℚ := List.zipWith (· + ·)

/-- `numpy` scalar multiplication. -/
def smul (a : ℚ) (v : List ℚ) : List ℚ := v.map (fun t => a * t)

/-- `np.dot`. -/
def dot (x y : List ℚ) : ℚ := (List.zipWith (· * ·) x y).sum

/-- Sum of squares: the square of `np.linalg.norm`.  The convergence
test `np.linalg.norm(d) < tol` is modelled as `ssq d < tol * tol`,
equivalent for the positive tolerances the caller supplies. -/
def ssq (x : List ℚ) : ℚ := (x.map (fun t => t * t)).sum

/-- The consecutive node pairs (i.e. the edges) of a node path, as in
`zip(path[:-1], path[1:])`. -/
def pathPairs (p : List ℕ) : List (ℕ × ℕ) := p.zip p.tail

/-- Total weight of a node path. -/
def pathWeight (w : ℕ × ℕ → ℚ) (p : List ℕ) : ℚ :=
  ((pathPairs p).map w).sum

/-- `p` is a walk from `o` to `d` in the graph with edge list `E`. -/
def IsWalk (E : List (ℕ × ℕ)) (o d : ℕ) (p : List ℕ) : Prop :=
  p.head? = some o ∧ p.getLast? = some d ∧ ∀ e ∈ pathPairs p, e ∈ E

instance (E : List (ℕ × ℕ)) (o d : ℕ) (p : List ℕ) :
    Decidable (IsWalk E o d p) := by unfold IsWalk; infer_instance

/-- The node set of the auxiliary graph `H` that `aon` and
`compute_od_travel_times` build: exactly the endpoints of the edges. -/
def nodesOf (E : List (ℕ × ℕ)) : List ℕ :=
  E.map Prod.fst ++ E.map Prod.snd

/-- Successors of `u` in the graph with edge list `E`. -/
def succs (E : List (ℕ × ℕ)) (u : ℕ) : List ℕ :=
  (E.filter (fun e => e.1 = u)).map Prod.snd

/-- All simple paths (no repeated node) from `cur` to `d` that avoid
`visited`, of at most `fuel` nodes. -/
def simplePathsAux (E : List (ℕ × ℕ)) (d : ℕ) :
    ℕ → ℕ → List ℕ → List (List ℕ)
  | 0, _, _ => []
  | fuel + 1, cur, visited =>
    if cur = d then [[d]]
    else
      ((succs E cur).filter (fun x => ¬ x ∈ cur :: visited)).flatMap
        (fun nxt =>
          (simplePathsAux E d fuel nxt (cur :: visited)).map (cur :: ·))

/-- All simple paths from `o` to `d`. -/
def simplePaths (E : List (ℕ × ℕ)) (o d : ℕ) : List (List ℕ) :=
  simplePathsAux E d ((nodesOf E).length + 1) o []

/-- First element of minimal measure (a deterministic tie-break:
earlier enumeration wins). -/
def argminBy (wf : List ℕ → ℚ) : List (List ℕ) → Option (List ℕ)
  | [] => none
  | p :: ps =>
      some (ps.foldl (fun best q => if wf q < wf best then q else best) p)

/-- Modelled from the spec: `networkx.shortest_path(H, o, d,
weight='weight')` as called by `aon` and `compute_od_travel_times`.
The library's source is not part of this repository; the spec (§4.3)
requires a minimum-total-weight path under non-negative weights with an
implementation-defined deterministic tie-break, an exception when no
path exists (`NetworkXNoPath`) and an exception when `o` or `d` is not a
node of `H` (`NodeNotFound`) — both captured here by `none`, matching
the broad `except` of the callers. -/
def shortest_path (E : List (ℕ × ℕ)) (w : ℕ × ℕ → ℚ) (o d : ℕ) :
    Option (List ℕ) :=
  if o ∈ nodesOf E ∧ d ∈ nodesOf E then
    argminBy (pathWeight w) (simplePaths E o d)
  else none

/-- Position of an edge in the edge list (the `edge_index` dictionary
of algorithms.py line 23; first occurrence, which is the unique one
since a `networkx.DiGraph` has no duplicate edges). -/
def idxOf : List (ℕ × ℕ) → (ℕ × ℕ) → Option ℕ
  | [], _ => none
  | x :: xs, e => if x = e then some 0 else (idxOf xs e).map (· + 1)

/-- The per-edge weight of the auxiliary graph `H` built by `aon`
(algorithms.py lines 32–34): edge number `idx` gets `costs[idx]`. -/
def wOf (E : List (ℕ × ℕ)) (costs : List ℚ) (e : ℕ × ℕ) : ℚ :=
  match idxOf E e with
  | some i => costs.getD i 0
  | none => 0

/-- `y[i] += q` on a flow vector. -/
def bumpAt : List ℚ → ℕ → ℚ → List ℚ
  | [], _, _ => []
  | x :: xs, 0, q => (x + q) :: xs
  | x :: xs, n + 1, q => x :: bumpAt xs n q

/-- The inner loop of `aon` over one found path (algorithms.py lines
39–40): add the demand to `y[edge_index[(a, b)]]` for every consecutive
pair of the path.  (Every pair of a returned path is an edge of `E`, so
the `none` fallback is unreachable.) -/
def addAlong (E : List (ℕ × ℕ)) (y : List ℚ) (p : List ℕ) (q : ℚ) :
    List ℚ :=
  (pathPairs p).foldl
    (fun y2 e =>
      match idxOf E e with
      | some i => bumpAt y2 i q
      | none => y2) y

/-- The inner `aon` of `frank_wolfe_assignment` (algorithms.py lines
31–43): start from the zero vector and, for each demand in order, load
the full demand onto a shortest path when one exists, skipping the
demand silently otherwise (the bare `except`). -/
def aon (E : List (ℕ × ℕ)) (costs : List ℚ)
    (demands : List (ℕ × ℕ × ℚ)) : List ℚ :=
  demands.foldl
    (fun y dem =>
      match shortest_path E (wOf E costs) dem.1 dem.2.1 with
      | some p => addAlong E y p dem.2.2
      | none => y)
    (zeros E.length)

/-- The line-search objective (algorithms.py lines 59–62):
`np.dot(costs_at(trial), trial)` at `trial = f + α·d`. -/
def goldenObjective (net : Net) (f d : List ℚ) (alpha : ℚ) : ℚ :=
  let trial := vadd f (smul alpha d)
  dot (costs_at net trial) trial

/-- One golden-section refinement round (algorithms.py lines 66–72).
`phi` stands for the float `(np.sqrt(5)-1)/2` of line 65; the model
takes it as a rational parameter and every claim below holds for all of
its values. -/
def goldenStep (net : Net) (f d : List ℚ) (phi : ℚ) (ab : ℚ × ℚ) : ℚ × ℚ :=
  let c1 := ab.2 - phi * (ab.2 - ab.1)
  let c2 := ab.1 + phi * (ab.2 - ab.1)
  if goldenObjective net f d c1 < goldenObjective net f d c2
  then (ab.1, c2) else (c1, ab.2)

/-- The whole line search (algorithms.py lines 64–73): exactly 20
refinement rounds starting from the bracket `(0, 1)`, no early exit,
then the bracket midpoint. -/
def goldenAlpha (net : Net) (f d : List ℚ) (phi : ℚ) : ℚ :=
  let ab := (fun ab => goldenStep net f d phi ab)^[20] (0, 1)
  (ab.1 + ab.2) / 2

/-- The main loop of `frank_wolfe_assignment` (algorithms.py lines
49–75), with the remaining iteration budget as the recursion measure:
compute the AON target at the live costs, test `‖y − f‖ < tol` (the only
convergence test), and otherwise take the golden-section step. -/
def fwLoop (net : Net) (demands : List (ℕ × ℕ × ℚ)) (tol phi : ℚ) :
    ℕ → List ℚ → List ℚ
  | 0, f => f
  | k + 1, f =>
    let c := costs_at net f
    let y := aon net.edges c demands
    let d := vsub y f
    if ssq d < tol * tol then f
    else fwLoop net demands tol phi k
      (vadd f (smul (goldenAlpha net f d phi) d))

/-- The write-back loop of `frank_wolfe_assignment` (algorithms.py
lines 77–78): store each final component into the network. -/
def write_flows (net : Net) (f : List ℚ) : Net :=
  (net.edges.zip f).foldl (fun n p => set_flow n p.1.1 p.1.2 p.2) net

/-- `frank_wolfe_assignment` (algorithms.py lines 19–80): reset all
flows, seed with AON at zero-flow costs, iterate, write the final
vector back, and return the mapping read back from the stored flows.
Returns both the mutated network and the returned dictionary (as an
association list in edge order). -/
def frank_wolfe_assignment (net : Net) (demands : List (ℕ × ℕ × ℚ))
    (max_iter : ℕ) (tol phi : ℚ) : Net × List ((ℕ × ℕ) × ℚ) :=
  let net0 := reset_flows net
  let f0 := aon net0.edges (costs_at net0 (zeros net0.edges.length)) demands
  let ffin := fwLoop net0 demands tol phi max_iter f0
  let net1 := write_flows net0 ffin
  (net1, net1.edges.map (fun e => (e, net1.flow e)))

/-- `compute_od_travel_times` (algorithms.py lines 83–114): weight each
edge by its cost at the *stored* flow, and map each OD pair to the sum
of those costs along a shortest path, or to `None` when no path exists
(or an endpoint is missing). -/
def compute_od_travel_times (net : Net) (demands : List (ℕ × ℕ × ℚ)) :
    List ((ℕ × ℕ) × Option ℚ) :=
  let w := fun e : ℕ × ℕ => net.cost e (net.flow e)
  demands.map (fun dem =>
    ((dem.1, dem.2.1),
      match shortest_path net.edges w dem.1 dem.2.1 with
      | some p => some (((pathPairs p).map w).sum)
      | none => none))

end Algorithms

namespace GraphModel

/-- A concrete one-edge graph, used only to instantiate universally
quantified theorems at a concrete input. -/
def gW : TrafficGraph :=
  { edges := [(0, 1)],
    data := fun _ =>
      { func_expr := Sandbox.exprOne,
        cost_func := Sandbox.cost Sandbox.refInterp Sandbox.exprOne,
        flow := 5 } }

end GraphModel

namespace Algorithms

/-- A concrete one-edge network, used only to instantiate universally
quantified theorems at a concrete input. -/
def netW : Net :=
  { edges := [(0, 1)], cost := fun _ q => q + 1, flow := fun _ => 3 }

end Algorithms

/-! ## Properties of the expression sandbox -/

namespace Sandbox

/-- `firstErr` on heads is the head of the concatenation. -/
theorem firstErr_head (l r : List String) :
    firstErr l.head? r.head? = (l ++ r).head? := by
  cases l <;> rfl

/-- `firstErr` yields `none` exactly when both sides do. -/
theorem firstErr_eq_none (a b : Option String) :
    firstErr a b = none ↔ a = none ∧ b = none := by
  cases a <;> simp [firstErr]

mutual
/-- The check reports exactly the first offense of the walk. -/
theorem checkExpr_eq_head : (e : PyExpr) → checkExpr e = (offenses e).head?
  | .const _ => rfl
  | .name id => by
      simp only [checkExpr, offenses]
      split <;> rfl
  | .binop op l r => by
      cases hop : badBinOpName op <;>
        simp only [checkExpr, offenses, hop, checkExpr_eq_head l,
          checkExpr_eq_head r, firstErr_head, List.nil_append,
          List.cons_append, List.head?_cons]
  | .unop op a => by
      cases hop : badUnOpName op <;>
        simp only [checkExpr, offenses, hop, checkExpr_eq_head a,
          List.nil_append, List.cons_append, List.head?_cons]
  | .call fn args => by
      simp only [checkExpr, offenses, checkExpr_eq_head fn,
        checkArgs_eq_head args, firstErr_head]
  | .tup elts => checkArgs_eq_head elts
  | .attrAccess _ _ => rfl
  | .subscriptE _ _ => rfl
  | .lam _ _ => rfl
  | .compareE _ _ => rfl
  | .boolOpE _ _ => rfl
  | .ifExp _ _ _ => rfl
  | .namedExpr _ _ => rfl
  | .listLit _ => rfl
  | .listComp _ _ _ => rfl

/-- List version of `checkExpr_eq_head`. -/
theorem checkArgs_eq_head : (as : PyArgs) → checkArgs as = (offensesArgs as).head?
  | .nil => rfl
  | .cons hd tl => by
      simp only [checkArgs, offensesArgs, checkExpr_eq_head hd,
        checkArgs_eq_head tl, firstErr_head]
end

/-- The check succeeds exactly on offense-free expressions. -/
theorem checkExpr_none_iff (e : PyExpr) :
    checkExpr e = none ↔ offenses e = [] := by
  rw [checkExpr_eq_head]
  cases offenses e <;> simp

/-- A reported message is one of the expression's offenses. -/
theorem checkExpr_mem_offenses (e : PyExpr) (m : String)
    (h : checkExpr e = some m) : m ∈ offenses e := by
  rw [checkExpr_eq_head] at h
  cases ho : offenses e <;> rw [ho] at h <;> simp_all

/-- Lifted interpretation results are never name errors. -/
theorem liftArith_ne_name (x : Except ArithErr ℚ) (n : String) :
    liftArith x ≠ .error (.nameErr n) := by
  cases x <;> simp [liftArith]

/-- Binary operators never raise a name error. -/
theorem applyBin_ne_name (I : MathInterp) (op : BinOpK) (v1 v2 : PyVal)
    (n : String) : applyBin I op v1 v2 ≠ .error (.nameErr n) := by
  unfold applyBin
  repeat' split
  all_goals simp [liftArith_ne_name]

/-- Unary operators never raise a name error. -/
theorem applyUn_ne_name (op : UnOpK) (v : PyVal) (n : String) :
    applyUn op v ≠ .error (.nameErr n) := by
  unfold applyUn
  repeat' split
  all_goals simp

set_option maxHeartbeats 2000000 in
/-- Function application never raises a name error. -/
theorem applyCall_ne_name (I : MathInterp) (fv : PyVal) (args : List PyVal)
    (n : String) : applyCall I fv args ≠ .error (.nameErr n) := by
  unfold applyCall
  repeat' split
  all_goals simp [liftArith_ne_name]

/-- The `float` conversion never raises a name error. -/
theorem pyFloat_ne_name (v : PyVal) (n : String) :
    pyFloat v ≠ .error (.nameErr n) := by
  cases v <;> simp [pyFloat]

/-- Binding two name-error-free computations is name-error-free. -/
theorem bind_ne_error {ε α β : Type} {x : Except ε α} {g : α → Except ε β}
    {bad : ε} (hx : x ≠ .error bad) (hg : ∀ a, g a ≠ .error bad) :
    (x >>= g) ≠ .error bad := by
  cases x with
  | error e =>
      simp only [ne_eq, Except.error.injEq] at hx
      simp only [bind, Except.bind, ne_eq, Except.error.injEq]
      exact hx
  | ok a => simp only [bind, Except.bind]; exact hg a

mutual
/-- Evaluation of a checked expression never raises a name error: every
name the expression mentions is `f` or a `SAFE_MATH` key, and every
other failure path produces an arithmetic/type error. -/
theorem evalE_ne_name (I : MathInterp) (fv : ℚ) :
    (e : PyExpr) → checkExpr e = none → ∀ n,
      evalE I fv e ≠ .error (.nameErr n)
  | .const c, _, n => by cases c <;> simp [evalE]
  | .name id, h, n => by
      simp only [checkExpr] at h
      split at h
      case isTrue hc =>
        simp only [evalE]
        by_cases hf : id = "f"
        · simp [hf]
        · by_cases hpi : id = "pi"
          · simp [hf, hpi]
          · by_cases he2 : id = "e"
            · simp [hf, hpi, he2]
            · rcases hc with hc | hc
              · exact absurd hc hf
              · simp [hf, hpi, he2, hc]
      case isFalse => exact absurd h (by simp)
  | .binop op l r, h, n => by
      cases hop : badBinOpName op with
      | some k => rw [checkExpr, hop] at h; exact absurd h (by simp)
      | none =>
        rw [checkExpr, hop] at h
        rw [firstErr_eq_none] at h
        simp only [evalE]
        exact bind_ne_error (evalE_ne_name I fv l h.1 n)
          (fun v1 => bind_ne_error (evalE_ne_name I fv r h.2 n)
            (fun v2 => applyBin_ne_name I op v1 v2 n))
  | .unop op a, h, n => by
      cases hop : badUnOpName op with
      | some k => rw [checkExpr, hop] at h; exact absurd h (by simp)
      | none =>
        rw [checkExpr, hop] at h
        simp only [evalE]
        exact bind_ne_error (evalE_ne_name I fv a h n)
          (fun v => applyUn_ne_name op v n)
  | .call fn args, h, n => by
      rw [checkExpr, firstErr_eq_none] at h
      simp only [evalE]
      exact bind_ne_error (evalE_ne_name I fv fn h.1 n)
        (fun vf => bind_ne_error (evalArgs_ne_name I fv args h.2 n)
          (fun vs => applyCall_ne_name I vf vs n))
  | .tup elts, h, n => by
      rw [checkExpr] at h
      simp only [evalE]
      exact bind_ne_error (evalArgs_ne_name I fv elts h n)
        (fun vs => by simp [pure, Except.pure])
  | .attrAccess _ _, h, n => by simp [evalE]
  | .subscriptE _ _, h, n => by simp [evalE]
  | .lam _ _, h, n => by simp [evalE]
  | .compareE _ _, h, n => by simp [evalE]
  | .boolOpE _ _, h, n => by simp [evalE]
  | .ifExp _ _ _, h, n => by simp [evalE]
  | .namedExpr _ _, h, n => by simp [evalE]
  | .listLit _, h, n => by simp [evalE]
  | .listComp _ _ _, h, n => by simp [evalE]

/-- List version of `evalE_ne_name`. -/
theorem evalArgs_ne_name (I : MathInterp) (fv : ℚ) :
    (as : PyArgs) → checkArgs as = none → ∀ n,
      evalArgs I fv as ≠ .error (.nameErr n)
  | .nil, _, n => by simp [evalArgs]
  | .cons hd tl, h, n => by
      rw [checkArgs, firstErr_eq_none] at h
      simp only [evalArgs]
      exact bind_ne_error (evalE_ne_name I fv hd h.1 n)
        (fun v => bind_ne_error (evalArgs_ne_name I fv tl h.2 n)
          (fun vs => by simp [pure, Except.pure]))
end

end Sandbox

namespace Sandbox

/-- Claim C1 (corrected), counterexample: the claim says every
expression containing a string literal fails to compile with
`UnsafeExpressionError`, but a string literal is an `ast.Constant` node
— which the whitelist admits — so `compile_cost_expr("'x'")` succeeds.
(The conversion failure surfaces only later, at evaluation time.) -/
theorem claim1_counterexample :
    isOkE (compile_cost_expr refInterp (PyExpr.const (PyConst.str "x"))) =
      true := rfl

/-- Claim C1 (amended): for every expression whose walk contains a node
kind outside the allowed set or a name other than `f` and the
whitelisted names — string (and other non-numeric) `Constant` literals
excepted, since `ast.Constant` is whitelisted — compilation fails with
an `UnsafeExpression` error whose message identifies one such offending
construct kind or name (`offenses` lists exactly the messages naming
them). -/
theorem claim1_amended (I : MathInterp) (e : PyExpr)
    (h : offenses e ≠ []) :
    ∃ m, compile_cost_expr I e = .error m ∧ m ∈ offenses e := by
  cases hc : checkExpr e with
  | none => exact absurd ((checkExpr_none_iff e).mp hc) h
  | some m =>
      exact ⟨m, by simp [compile_cost_expr, hc],
        checkExpr_mem_offenses e m hc⟩

/-- Witness for `claim1_amended` at the concrete input `f.__class__`. -/
theorem claim1_amended_witness :
    offenses exprFClass ≠ [] ∧
      ∃ m, compile_cost_expr refInterp exprFClass = .error m ∧
        m ∈ offenses exprFClass :=
  ⟨by decide, claim1_amended refInterp exprFClass (by decide)⟩

/-- Claim C2 (confirmed): `compile("1 + 0.1*f")` succeeds and its cost
function returns `1.1` (= 11/10 exactly, numerals idealised as
rationals) at `f = 1`; `compile("__import__('os')")`,
`compile("f.__class__")` and `compile("open('x')")` fail with the
`UnsafeExpression` messages shown; and `compile("")` preprocesses its
input to the very string `"1.0"` that `compile("1.0")` also
preprocesses to — so the two produce the same compiled function — whose
value is `1.0` at every flow. -/
theorem claim2_examples (I : MathInterp) :
    isOkE (compile_cost_expr I exprOnePlusTenthF) = true
    ∧ cost I exprOnePlusTenthF 1 = .ok (11/10)
    ∧ compile_cost_expr I exprImportOs = .error (unknownNameMsg "__import__")
    ∧ compile_cost_expr I exprFClass = .error (disallowedMsg "Attribute")
    ∧ compile_cost_expr I exprOpenX = .error (unknownNameMsg "open")
    ∧ preprocessInput (some "") = "1.0"
    ∧ preprocessInput (some "1.0") = "1.0"
    ∧ (∀ fv : ℚ, cost I exprOne fv = .ok 1) :=
  ⟨rfl,
   by simp [cost, evalE, applyBin, toNum, pyFloat, bind, Except.bind]; norm_num,
   rfl, rfl, rfl, rfl, rfl, fun _ => rfl⟩

/-- Claim C3 (corrected), counterexample: `compile_cost_expr` accepts
`1/f`, and the compiled cost function raises `ZeroDivisionError` at
flow 0 — so a successfully compiled function can raise at evaluation
time, contrary to the claim. -/
theorem claim3_counterexample :
    checkExpr exprOneDivF = none ∧
      cost refInterp exprOneDivF 0 = .error (.arith .zeroDiv) :=
  ⟨rfl, rfl⟩

/-- Claim C3 (amended): what compile-time checking does guarantee is
that an accepted expression never fails a *name lookup* at evaluation
time (the sandbox/security failure mode); arithmetic errors such as
division by zero or a math-domain error can still occur when the
compiled function is called. -/
theorem claim3_amended (I : MathInterp) (e : PyExpr) (fv : ℚ) (n : String)
    (h : checkExpr e = none) : cost I e fv ≠ .error (.nameErr n) := by
  unfold cost
  exact bind_ne_error (evalE_ne_name I fv e h n) (fun v => pyFloat_ne_name v n)

/-- Witness for `claim3_amended` at the concrete input `1 + 0.1*f`. -/
theorem claim3_amended_witness :
    checkExpr exprOnePlusTenthF = none ∧
      cost refInterp exprOnePlusTenthF 2 ≠ .error (.nameErr "os") :=
  ⟨rfl, claim3_amended refInterp exprOnePlusTenthF 2 "os" rfl⟩

end Sandbox

/-! ## Properties of the graph model -/

namespace GraphModel

open Sandbox

/-- Claim C7 (confirmed): `set_edge_expr` is atomic and
frame-preserving.  If the replacement expression fails the whitelist
check, the call raises that very `UnsafeExpression` error — and since
the source compiles *before* writing any attribute, the graph is
untouched, which the `Except`-valued model renders by returning the
error without producing a new graph.  If compilation succeeds, exactly
`func_expr` and `cost_func` of edge `(u, v)` change, its `flow` and
every other edge's attributes are preserved, and the edge list is
unchanged. -/
theorem claim7_set_edge_expr_atomic (I : MathInterp) (g : TrafficGraph)
    (u v : ℕ) (e : PyExpr) :
    (∀ m, checkExpr e = some m → set_edge_expr I g u v e = .error m)
    ∧ (checkExpr e = none →
        ∃ g2, set_edge_expr I g u v e = .ok g2
          ∧ g2.edges = g.edges
          ∧ (g2.data (u, v)).func_expr = e
          ∧ (g2.data (u, v)).cost_func = cost I e
          ∧ (g2.data (u, v)).flow = (g.data (u, v)).flow
          ∧ ∀ p, p ≠ (u, v) → g2.data p = g.data p) := by
  constructor
  · intro m hm
    simp [set_edge_expr, compile_cost_expr, hm]
  · intro h
    refine ⟨{ g with
        data := fun p =>
          if p = (u, v) then
            { g.data p with func_expr := e, cost_func := cost I e }
          else g.data p }, ?_, rfl, ?_, ?_, ?_, ?_⟩
    · simp [set_edge_expr, compile_cost_expr, h]
    · simp
    · simp
    · simp
    · intro p hp
      simp [hp]

/-- Witness for `claim7_set_edge_expr_atomic` on the concrete graph
`gW`, with the rejected expression `f.__class__` and the accepted
expression `1 + 0.1*f`. -/
theorem claim7_witness :
    set_edge_expr refInterp gW 0 1 exprFClass =
        .error (disallowedMsg "Attribute")
    ∧ (∃ g2, set_edge_expr refInterp gW 0 1 exprOnePlusTenthF = .ok g2
        ∧ g2.edges = gW.edges
        ∧ (g2.data (0, 1)).func_expr = exprOnePlusTenthF
        ∧ (g2.data (0, 1)).cost_func = cost refInterp exprOnePlusTenthF
        ∧ (g2.data (0, 1)).flow = (gW.data (0, 1)).flow
        ∧ ∀ p, p ≠ (0, 1) → g2.data p = gW.data p) :=
  ⟨(claim7_set_edge_expr_atomic refInterp gW 0 1 exprFClass).1
      (disallowedMsg "Attribute") rfl,
   (claim7_set_edge_expr_atomic refInterp gW 0 1 exprOnePlusTenthF).2 rfl⟩

end GraphModel

/-! ## Properties of the solver -/

namespace Algorithms

/-- `bumpAt` preserves length. -/
theorem bumpAt_length (y : List ℚ) (i : ℕ) (q : ℚ) :
    (bumpAt y i q).length = y.length := by
  induction y generalizing i with
  | nil => rfl
  | cons x xs ih => cases i <;> simp [bumpAt, ih]

/-- `addAlong` preserves length. -/
theorem addAlong_length (E : List (ℕ × ℕ)) (y : List ℚ) (p : List ℕ)
    (q : ℚ) : (addAlong E y p q).length = y.length := by
  unfold addAlong
  induction pathPairs p generalizing y with
  | nil => rfl
  | cons e es ih =>
      rw [List.foldl_cons]
      cases idxOf E e <;> simp [ih, bumpAt_length]

/-- The AON vector has one component per edge. -/
theorem aon_length (E : List (ℕ × ℕ)) (costs : List ℚ)
    (demands : List (ℕ × ℕ × ℚ)) : (aon E costs demands).length = E.length := by
  unfold aon
  have h : ∀ (ds : List (ℕ × ℕ × ℚ)) (y : List ℚ),
      (ds.foldl (fun y dem =>
        match shortest_path E (wOf E costs) dem.1 dem.2.1 with
        | some p => addAlong E y p dem.2.2
        | none => y) y).length = y.length := by
    intro ds
    induction ds with
    | nil => intro y; rfl
    | cons dem rest ih =>
        intro y
        rw [List.foldl_cons, ih]
        cases shortest_path E (wOf E costs) dem.1 dem.2.1 <;>
          simp [addAlong_length]
  rw [h]
  simp [zeros]

/-- One Frank–Wolfe update preserves the vector length. -/
theorem update_length (f d : List ℚ) (a : ℚ) (h : d.length = f.length) :
    (vadd f (smul a d)).length = f.length := by
  simp [vadd, smul, h]

/-- The loop preserves the vector length. -/
theorem fwLoop_length (net : Net) (demands : List (ℕ × ℕ × ℚ))
    (tol phi : ℚ) (k : ℕ) (f : List ℚ) (h : f.length = net.edges.length) :
    (fwLoop net demands tol phi k f).length = net.edges.length := by
  induction k generalizing f with
  | zero => exact h
  | succ k ih =>
      rw [fwLoop]
      split
      · exact h
      · rw [ih]
        rw [update_length]
        · exact h
        · simp [vsub, aon_length, h]

/-- `set_flow` touches only the flow map. -/
theorem set_flow_edges (net : Net) (u v : ℕ) (q : ℚ) :
    (set_flow net u v q).edges = net.edges := rfl

/-- `set_flow` touches only the flow map. -/
theorem set_flow_cost (net : Net) (u v : ℕ) (q : ℚ) :
    (set_flow net u v q).cost = net.cost := rfl

/-- The write-back fold touches only the flow map. -/
theorem foldl_write_edges (L : List ((ℕ × ℕ) × ℚ)) : ∀ net : Net,
    (L.foldl (fun n p => set_flow n p.1.1 p.1.2 p.2) net).edges = net.edges := by
  induction L with
  | nil => intro net; rfl
  | cons x xs ih => intro net; rw [List.foldl_cons, ih]; rfl

/-- The write-back fold touches only the flow map. -/
theorem foldl_write_cost (L : List ((ℕ × ℕ) × ℚ)) : ∀ net : Net,
    (L.foldl (fun n p => set_flow n p.1.1 p.1.2 p.2) net).cost = net.cost := by
  induction L with
  | nil => intro net; rfl
  | cons x xs ih => intro net; rw [List.foldl_cons, ih]; rfl

/-- An edge not written keeps its flow. -/
theorem foldl_write_flow_not_mem (L : List ((ℕ × ℕ) × ℚ)) :
    ∀ (net : Net) (e : ℕ × ℕ), e ∉ L.map Prod.fst →
      (L.foldl (fun n p => set_flow n p.1.1 p.1.2 p.2) net).flow e = net.flow e := by
  induction L with
  | nil => intro net e _; rfl
  | cons x xs ih =>
      intro net e he
      rw [List.map_cons, List.mem_cons] at he
      push_neg at he
      rw [List.foldl_cons, ih _ _ he.2]
      simp [set_flow, he.1]

/-- A written edge ends with its (unique) written value. -/
theorem foldl_write_flow_mem (L : List ((ℕ × ℕ) × ℚ)) :
    ∀ (net : Net) (e : ℕ × ℕ) (q : ℚ), (L.map Prod.fst).Nodup →
      (e, q) ∈ L →
      (L.foldl (fun n p => set_flow n p.1.1 p.1.2 p.2) net).flow e = q := by
  induction L with
  | nil => intro net e q _ hm; cases hm
  | cons x xs ih =>
      intro net e q hnd hm
      rw [List.map_cons, List.nodup_cons] at hnd
      rw [List.foldl_cons]
      rcases List.mem_cons.mp hm with hx | hx
      · have hx1 : x.1 = e := by rw [← hx]
        have he : e ∉ xs.map Prod.fst := by rw [← hx1]; exact hnd.1
        rw [foldl_write_flow_not_mem xs _ _ he, ← hx]
        simp [set_flow]
      · exact ih _ _ _ hnd.2 hx

/-- Component form of `write_flows`: with duplicate-free edges and a
vector of matching length, edge number `i` stores component `i`. -/
theorem write_flows_get (net : Net) (f : List ℚ) (hnd : net.edges.Nodup)
    (hlen : f.length = net.edges.length) (i : ℕ)
    (hi : i < net.edges.length) :
    (write_flows net f).flow (net.edges.get ⟨i, hi⟩) = f.getD i 0 := by
  unfold write_flows
  have hfst : (net.edges.zip f).map Prod.fst = net.edges :=
    List.map_fst_zip _ _ (by omega)
  have hmem : (net.edges.get ⟨i, hi⟩, f.getD i 0) ∈ net.edges.zip f := by
    have hif : i < f.length := by omega
    have hz : i < (net.edges.zip f).length := by
      rw [List.length_zip]; omega
    have h1 := List.getElem_mem hz
    rw [List.getElem_zip] at h1
    rw [List.getD_eq_getElem f 0 hif, List.get_eq_getElem]
    exact h1
  exact foldl_write_flow_mem _ _ _ _ (by rw [hfst]; exact hnd) hmem

/-- Resetting depends only on the topology and cost fields. -/
theorem reset_flows_congr (net net2 : Net) (he : net2.edges = net.edges)
    (hc : net2.cost = net.cost) : reset_flows net2 = reset_flows net := by
  cases net; cases net2
  simp only [reset_flows, Net.mk.injEq] at *
  exact ⟨he, hc, trivial⟩

/-- A whole solver run depends only on the topology and cost fields:
the incoming flow state is overwritten by the initial reset and never
read. -/
theorem fw_congr (net net2 : Net) (demands : List (ℕ × ℕ × ℚ))
    (max_iter : ℕ) (tol phi : ℚ) (he : net2.edges = net.edges)
    (hc : net2.cost = net.cost) :
    frank_wolfe_assignment net2 demands max_iter tol phi =
      frank_wolfe_assignment net demands max_iter tol phi := by
  unfold frank_wolfe_assignment
  rw [reset_flows_congr net net2 he hc]

/-- A run does not change the edge list. -/
theorem fw_edges (net : Net) (demands : List (ℕ × ℕ × ℚ))
    (max_iter : ℕ) (tol phi : ℚ) :
    (frank_wolfe_assignment net demands max_iter tol phi).1.edges =
      net.edges := by
  unfold frank_wolfe_assignment write_flows
  rw [foldl_write_edges]
  rfl

/-- A run does not change the cost functions. -/
theorem fw_cost (net : Net) (demands : List (ℕ × ℕ × ℚ))
    (max_iter : ℕ) (tol phi : ℚ) :
    (frank_wolfe_assignment net demands max_iter tol phi).1.cost =
      net.cost := by
  unfold frank_wolfe_assignment write_flows
  rw [foldl_write_cost]
  rfl

/-- One golden-section round keeps the bracket ordered inside
`[0, 1]` for any ratio in `[0, 1]`. -/
theorem goldenStep_preserves (net : Net) (f d : List ℚ) (phi : ℚ)
    (h0 : 0 ≤ phi) (h1 : phi ≤ 1) (ab : ℚ × ℚ) (ha : 0 ≤ ab.1)
    (hab : ab.1 ≤ ab.2) (hb : ab.2 ≤ 1) :
    0 ≤ (goldenStep net f d phi ab).1
    ∧ (goldenStep net f d phi ab).1 ≤ (goldenStep net f d phi ab).2
    ∧ (goldenStep net f d phi ab).2 ≤ 1 := by
  simp only [goldenStep]
  split <;> refine ⟨?_, ?_, ?_⟩ <;> dsimp only <;>
    nlinarith [mul_nonneg h0 (sub_nonneg.mpr hab),
      mul_nonneg (sub_nonneg.mpr h1) (sub_nonneg.mpr hab)]

/-- The golden-section bracket stays ordered inside `[0, 1]` for any
ratio in `[0, 1]`. -/
theorem goldenBracket_bounds (net : Net) (f d : List ℚ) (phi : ℚ)
    (h0 : 0 ≤ phi) (h1 : phi ≤ 1) (n : ℕ) :
    0 ≤ ((goldenStep net f d phi)^[n] ((0 : ℚ), (1 : ℚ))).1
    ∧ ((goldenStep net f d phi)^[n] ((0 : ℚ), (1 : ℚ))).1 ≤
        ((goldenStep net f d phi)^[n] ((0 : ℚ), (1 : ℚ))).2
    ∧ ((goldenStep net f d phi)^[n] ((0 : ℚ), (1 : ℚ))).2 ≤ 1 := by
  induction n with
  | zero => norm_num
  | succ n ih =>
      rw [Function.iterate_succ_apply']
      exact goldenStep_preserves net f d phi h0 h1 _ ih.1 ih.2.1 ih.2.2

/-- Claim C4 (confirmed): in each iteration at flow `f`, with AON
target `y` and direction `d = y − f`: if `‖d‖ < tol` (rendered on
squares: `ssq d < tol²`), the loop stops and returns `f` unchanged —
and this is the only exit besides exhausting the budget; otherwise the
step is `f + α·d` where `α` is produced by a golden-section search that
runs exactly 20 refinement rounds from the bracket `(0, 1)` with no
early exit, minimizes `dot(costs_at(trial), trial)`, returns the
bracket midpoint — and stays in `[0, 1]` whenever the ratio does. -/
theorem claim4_iteration_step (net : Net) (demands : List (ℕ × ℕ × ℚ))
    (tol phi : ℚ) (k : ℕ) (f : List ℚ) (hphi0 : 0 ≤ phi)
    (hphi1 : phi ≤ 1) :
    (ssq (vsub (aon net.edges (costs_at net f) demands) f) < tol * tol →
        fwLoop net demands tol phi (k + 1) f = f)
    ∧ (¬ ssq (vsub (aon net.edges (costs_at net f) demands) f) < tol * tol →
        fwLoop net demands tol phi (k + 1) f =
          fwLoop net demands tol phi k
            (vadd f (smul (goldenAlpha net f
                (vsub (aon net.edges (costs_at net f) demands) f) phi)
              (vsub (aon net.edges (costs_at net f) demands) f))))
    ∧ (∀ f2 d2 : List ℚ, goldenAlpha net f2 d2 phi =
        (((goldenStep net f2 d2 phi)^[20] ((0 : ℚ), (1 : ℚ))).1 +
          ((goldenStep net f2 d2 phi)^[20] ((0 : ℚ), (1 : ℚ))).2) / 2)
    ∧ (∀ (f2 d2 : List ℚ) (alpha : ℚ), goldenObjective net f2 d2 alpha =
        dot (costs_at net (vadd f2 (smul alpha d2)))
          (vadd f2 (smul alpha d2)))
    ∧ (∀ f2 d2 : List ℚ,
        0 ≤ goldenAlpha net f2 d2 phi ∧ goldenAlpha net f2 d2 phi ≤ 1) := by
  refine ⟨?_, ?_, ?_, ?_, ?_⟩
  · intro h
    simp only [fwLoop]
    rw [if_pos h]
  · intro h
    simp only [fwLoop]
    rw [if_neg h]
  · intro f2 d2
    rfl
  · intro f2 d2 alpha
    rfl
  · intro f2 d2
    have hb := goldenBracket_bounds net f2 d2 phi hphi0 hphi1 20
    have heq : goldenAlpha net f2 d2 phi =
        (((goldenStep net f2 d2 phi)^[20] ((0 : ℚ), (1 : ℚ))).1 +
          ((goldenStep net f2 d2 phi)^[20] ((0 : ℚ), (1 : ℚ))).2) / 2 := rfl
    rw [heq]
    constructor
    · linarith [hb.1, hb.2.1]
    · linarith [hb.2.1, hb.2.2]

/-- Witness for `claim4_iteration_step` on the concrete network `netW`
with ratio `1/2`. -/
theorem claim4_witness :
    (0 : ℚ) ≤ 1/2 ∧ (1/2 : ℚ) ≤ 1 ∧
      ((ssq (vsub (aon netW.edges (costs_at netW [0]) [(0, 1, 5)]) [0]) <
          1 * 1 →
        fwLoop netW [(0, 1, 5)] 1 (1/2) (0 + 1) [0] = [0])
      ∧ (¬ ssq (vsub (aon netW.edges (costs_at netW [0]) [(0, 1, 5)]) [0]) <
            1 * 1 →
          fwLoop netW [(0, 1, 5)] 1 (1/2) (0 + 1) [0] =
            fwLoop netW [(0, 1, 5)] 1 (1/2) 0
              (vadd [0] (smul (goldenAlpha netW [0]
                  (vsub (aon netW.edges (costs_at netW [0]) [(0, 1, 5)]) [0])
                  (1/2))
                (vsub (aon netW.edges (costs_at netW [0]) [(0, 1, 5)]) [0]))))
      ∧ (∀ f2 d2 : List ℚ, goldenAlpha netW f2 d2 (1/2) =
          (((goldenStep netW f2 d2 (1/2))^[20] ((0 : ℚ), (1 : ℚ))).1 +
            ((goldenStep netW f2 d2 (1/2))^[20] ((0 : ℚ), (1 : ℚ))).2) / 2)
      ∧ (∀ (f2 d2 : List ℚ) (alpha : ℚ),
          goldenObjective netW f2 d2 alpha =
            dot (costs_at netW (vadd f2 (smul alpha d2)))
              (vadd f2 (smul alpha d2)))
      ∧ (∀ f2 d2 : List ℚ, 0 ≤ goldenAlpha netW f2 d2 (1/2) ∧
          goldenAlpha netW f2 d2 (1/2) ≤ 1)) :=
  ⟨by norm_num, by norm_num,
    claim4_iteration_step netW [(0, 1, 5)] 1 (1/2) 0 [0]
      (by norm_num) (by norm_num)⟩

/-- `frank_wolfe_assignment` unpacked: the second component re-reads the
flows the first component stores. -/
theorem fw_snd (net : Net) (demands : List (ℕ × ℕ × ℚ)) (max_iter : ℕ)
    (tol phi : ℚ) :
    (frank_wolfe_assignment net demands max_iter tol phi).2 =
      (frank_wolfe_assignment net demands max_iter tol phi).1.edges.map
        (fun e => (e,
          (frank_wolfe_assignment net demands max_iter tol phi).1.flow e)) :=
  rfl

/-- Claim C5 (confirmed): a run is insensitive to the caller-visible
flow state (it resets every flow to 0 before seeding with AON at
zero-flow costs); on termination every edge's stored flow is the final
vector's corresponding component, and the returned mapping assigns to
each edge exactly that stored flow. -/
theorem claim5_reset_and_writeback (net : Net)
    (demands : List (ℕ × ℕ × ℚ)) (max_iter : ℕ) (tol phi : ℚ)
    (hnd : net.edges.Nodup) :
    (∀ net2 : Net, net2.edges = net.edges → net2.cost = net.cost →
        frank_wolfe_assignment net2 demands max_iter tol phi =
          frank_wolfe_assignment net demands max_iter tol phi)
    ∧ (frank_wolfe_assignment net demands max_iter tol phi).1.edges =
        net.edges
    ∧ (∀ i, (hi : i < net.edges.length) →
        (frank_wolfe_assignment net demands max_iter tol phi).1.flow
            (net.edges.get ⟨i, hi⟩) =
          (fwLoop (reset_flows net) demands tol phi max_iter
              (aon net.edges
                (costs_at (reset_flows net) (zeros net.edges.length))
                demands)).getD i 0)
    ∧ (frank_wolfe_assignment net demands max_iter tol phi).2 =
        net.edges.map (fun e => (e,
          (frank_wolfe_assignment net demands max_iter tol phi).1.flow e)) := by
  refine ⟨fun net2 he hc => fw_congr net net2 demands max_iter tol phi he hc,
    fw_edges net demands max_iter tol phi, ?_, ?_⟩
  · intro i hi
    exact write_flows_get (reset_flows net) _ hnd
      (by
        rw [fwLoop_length]
        exact aon_length _ _ _) i hi
  · rw [fw_snd, fw_edges]

/-- Witness for `claim5_reset_and_writeback` on the concrete network
`netW`. -/
theorem claim5_witness :
    netW.edges.Nodup ∧
      ((∀ net2 : Net, net2.edges = netW.edges → net2.cost = netW.cost →
          frank_wolfe_assignment net2 [(0, 1, 5)] 3 1 (1/2) =
            frank_wolfe_assignment netW [(0, 1, 5)] 3 1 (1/2))
      ∧ (frank_wolfe_assignment netW [(0, 1, 5)] 3 1 (1/2)).1.edges =
          netW.edges
      ∧ (∀ i, (hi : i < netW.edges.length) →
          (frank_wolfe_assignment netW [(0, 1, 5)] 3 1 (1/2)).1.flow
              (netW.edges.get ⟨i, hi⟩) =
            (fwLoop (reset_flows netW) [(0, 1, 5)] 1 (1/2) 3
                (aon netW.edges
                  (costs_at (reset_flows netW) (zeros netW.edges.length))
                  [(0, 1, 5)])).getD i 0)
      ∧ (frank_wolfe_assignment netW [(0, 1, 5)] 3 1 (1/2)).2 =
          netW.edges.map (fun e => (e,
            (frank_wolfe_assignment netW [(0, 1, 5)] 3 1 (1/2)).1.flow e))) :=
  ⟨by decide, claim5_reset_and_writeback netW [(0, 1, 5)] 3 1 (1/2) (by decide)⟩

/-- Claim C9 (confirmed): the solver is a pure function of the network
topology, the cost functions, the demand list, the iteration budget and
the tolerance — two runs from the same reset state (any stored flows)
give identical results, and re-solving on the just-solved network
reproduces the same flows bit for bit. -/
theorem claim9_determinism (net : Net) (demands : List (ℕ × ℕ × ℚ))
    (max_iter : ℕ) (tol phi : ℚ) :
    (∀ net2 : Net, net2.edges = net.edges → net2.cost = net.cost →
        frank_wolfe_assignment net2 demands max_iter tol phi =
          frank_wolfe_assignment net demands max_iter tol phi)
    ∧ frank_wolfe_assignment
        (frank_wolfe_assignment net demands max_iter tol phi).1
        demands max_iter tol phi =
      frank_wolfe_assignment net demands max_iter tol phi :=
  ⟨fun net2 he hc => fw_congr net net2 demands max_iter tol phi he hc,
   fw_congr net _ demands max_iter tol phi
     (fw_edges net demands max_iter tol phi)
     (fw_cost net demands max_iter tol phi)⟩

/-- Witness for `claim9_determinism`: a flow-perturbed copy of `netW`
solves to the same result, and re-solving reproduces it. -/
theorem claim9_witness :
    frank_wolfe_assignment
        { edges := [(0, 1)], cost := fun _ q => q + 1, flow := fun _ => 99 }
        [(0, 1, 5)] 2 1 (1/2) =
      frank_wolfe_assignment netW [(0, 1, 5)] 2 1 (1/2)
    ∧ frank_wolfe_assignment
        (frank_wolfe_assignment netW [(0, 1, 5)] 2 1 (1/2)).1
        [(0, 1, 5)] 2 1 (1/2) =
      frank_wolfe_assignment netW [(0, 1, 5)] 2 1 (1/2) :=
  ⟨(claim9_determinism netW [(0, 1, 5)] 2 1 (1/2)).1 _ rfl rfl,
   (claim9_determinism netW [(0, 1, 5)] 2 1 (1/2)).2⟩

end Algorithms

namespace Algorithms

/-- `pathPairs` of a two-or-more-node path. -/
theorem pathPairs_cons2 (a b : ℕ) (t : List ℕ) :
    pathPairs (a :: b :: t) = (a, b) :: pathPairs (b :: t) := rfl

/-- Both endpoints of a path pair lie on the path. -/
theorem pathPairs_mem (p : List ℕ) (e : ℕ × ℕ) (h : e ∈ pathPairs p) :
    e.1 ∈ p ∧ e.2 ∈ p := by
  induction p with
  | nil => cases h
  | cons a t ih =>
      cases t with
      | nil => cases h
      | cons b t2 =>
          rw [pathPairs_cons2] at h
          rcases List.mem_cons.mp h with he | h2
          · rw [he]
            exact ⟨List.mem_cons_self a _, List.mem_cons_of_mem a
              (List.mem_cons_self b _)⟩
          · have := ih h2
            exact ⟨List.mem_cons_of_mem a this.1, List.mem_cons_of_mem a this.2⟩

/-- Pairs of a duplicate-free path are duplicate-free. -/
theorem pathPairs_nodup (p : List ℕ) (h : p.Nodup) : (pathPairs p).Nodup := by
  induction p with
  | nil => simp [pathPairs]
  | cons a t ih =>
      cases t with
      | nil => simp [pathPairs]
      | cons b t2 =>
          rw [pathPairs_cons2]
          rw [List.nodup_cons] at h ⊢
          refine ⟨?_, ih h.2⟩
          intro hc
          exact h.1 (pathPairs_mem _ _ hc).1

/-- Membership in the successor list is edge membership. -/
theorem succs_mem (E : List (ℕ × ℕ)) (u x : ℕ) :
    x ∈ succs E u ↔ (u, x) ∈ E := by
  unfold succs
  simp only [List.mem_map, List.mem_filter]
  constructor
  · rintro ⟨e, ⟨heE, he1⟩, he2⟩
    have h1 : e.1 = u := by simpa using he1
    have : e = (u, x) := by
      cases e
      simp_all
    rw [← this]
    exact heE
  · intro h
    exact ⟨(u, x), ⟨h, by simp⟩, rfl⟩

/-- Soundness of the simple-path enumeration: every enumerated list is
a duplicate-free walk from `cur` to `d` avoiding `visited`. -/
theorem simplePathsAux_sound (E : List (ℕ × ℕ)) (d : ℕ) :
    ∀ (fuel cur : ℕ) (visited : List ℕ) (p : List ℕ),
      cur ∉ visited →
      p ∈ simplePathsAux E d fuel cur visited →
      IsWalk E cur d p ∧ p.Nodup ∧ ∀ x ∈ p, x ∉ visited := by
  intro fuel
  induction fuel with
  | zero =>
      intro cur visited p _ hp
      cases hp
  | succ fuel ih =>
      intro cur visited p hcv hp
      rw [simplePathsAux] at hp
      by_cases hcd : cur = d
      · rw [if_pos hcd] at hp
        have hpd : p = [d] := by simpa using hp
        subst hpd
        subst hcd
        refine ⟨⟨rfl, rfl, ?_⟩, by simp, ?_⟩
        · intro e he
          cases he
        · intro x hx
          have : x = cur := by simpa using hx
          rw [this]
          exact hcv
      · rw [if_neg hcd] at hp
        rw [List.mem_flatMap] at hp
        obtain ⟨nxt, hnxt, hpm⟩ := hp
        rw [List.mem_filter] at hnxt
        have hnsucc : nxt ∈ succs E cur := hnxt.1
        have hnvis : nxt ∉ cur :: visited := by simpa using hnxt.2
        rw [List.mem_map] at hpm
        obtain ⟨q, hq, hpq⟩ := hpm
        obtain ⟨hwq, hndq, hvq⟩ := ih nxt (cur :: visited) q hnvis hq
        subst hpq
        obtain ⟨hqh, hql, hqp⟩ := hwq
        have hqne : q = nxt :: q.tail := List.eq_cons_of_mem_head? hqh
        constructor
        · refine ⟨rfl, ?_, ?_⟩
          · rw [hqne, List.getLast?_cons_cons, ← hqne]
            exact hql
          · intro e he
            rw [hqne, pathPairs_cons2, ← hqne] at he
            rcases List.mem_cons.mp he with he | he
            · rw [he]
              exact (succs_mem E cur nxt).mp hnsucc
            · exact hqp e he
        constructor
        · rw [List.nodup_cons]
          refine ⟨?_, hndq⟩
          intro hc
          exact (hvq cur hc) (List.mem_cons_self cur visited)
        · intro x hx
          rcases List.mem_cons.mp hx with hx | hx
          · rw [hx]
            exact hcv
          · intro hc
            exact (hvq x hx) (List.mem_cons_of_mem cur hc)

end Algorithms

namespace Algorithms

/-- Completeness of the simple-path enumeration: every duplicate-free
walk avoiding `visited` and fitting in the fuel is enumerated. -/
theorem simplePathsAux_complete (E : List (ℕ × ℕ)) (d : ℕ) :
    ∀ (fuel : ℕ) (p : List ℕ) (cur : ℕ) (visited : List ℕ),
      IsWalk E cur d p → p.Nodup → (∀ x ∈ p, x ∉ visited) →
      p.length ≤ fuel → p ∈ simplePathsAux E d fuel cur visited := by
  intro fuel
  induction fuel with
  | zero =>
      intro p cur visited hw _ _ hl
      rw [List.eq_cons_of_mem_head? hw.1] at hl
      simp at hl
  | succ fuel ih =>
      intro p cur visited hw hnd hvis hl
      obtain ⟨hh, hlast, hpairs⟩ := hw
      have hpc : p = cur :: p.tail := List.eq_cons_of_mem_head? hh
      rw [simplePathsAux]
      by_cases hcd : cur = d
      · rw [if_pos hcd]
        have hpt : p.tail = [] := by
          by_contra hne
          obtain ⟨y, t2, ht⟩ := List.exists_cons_of_ne_nil hne
          have hp2 : p = cur :: y :: t2 := by rw [hpc, ht]
          rw [hp2, List.getLast?_cons_cons] at hlast
          have hd2 : d ∈ y :: t2 := by
            obtain ⟨hne2, heq⟩ := List.mem_getLast?_eq_getLast hlast
            rw [heq]
            exact List.getLast_mem hne2
          rw [hp2, List.nodup_cons] at hnd
          rw [hcd] at hnd
          exact hnd.1 hd2
        have : p = [d] := by rw [hpc, hpt, hcd]
        rw [this]
        exact List.mem_singleton.mpr rfl
      · rw [if_neg hcd]
        have hne : p.tail ≠ [] := by
          intro h0
          rw [hpc, h0] at hlast
          simp at hlast
          exact hcd hlast
        obtain ⟨nxt, t2, ht⟩ := List.exists_cons_of_ne_nil hne
        have hp2 : p = cur :: nxt :: t2 := by rw [hpc, ht]
        rw [List.mem_flatMap]
        refine ⟨nxt, ?_, ?_⟩
        · rw [List.mem_filter]
          constructor
          · rw [succs_mem]
            refine hpairs _ ?_
            rw [hp2, pathPairs_cons2]
            exact List.mem_cons_self _ _
          · have h1 : nxt ∉ cur :: visited := by
              intro hc
              rcases List.mem_cons.mp hc with hc | hc
              · rw [hp2, List.nodup_cons] at hnd
                exact hnd.1 (by rw [← hc]; exact List.mem_cons_self _ _)
              · exact hvis nxt
                  (by rw [hp2]
                      exact List.mem_cons_of_mem _ (List.mem_cons_self _ _)) hc
            simpa using h1
        · rw [List.mem_map]
          refine ⟨nxt :: t2, ?_, by rw [hp2]⟩
          apply ih (nxt :: t2) nxt (cur :: visited)
          · refine ⟨rfl, ?_, ?_⟩
            · rw [hp2, List.getLast?_cons_cons] at hlast
              exact hlast
            · intro e he
              refine hpairs e ?_
              rw [hp2, pathPairs_cons2]
              exact List.mem_cons_of_mem _ he
          · rw [hp2, List.nodup_cons] at hnd
            exact hnd.2
          · intro x hx hc
            rcases List.mem_cons.mp hc with hc | hc
            · rw [hp2, List.nodup_cons] at hnd
              exact hnd.1 (by rw [← hc]; exact hx)
            · exact hvis x (by rw [hp2]; exact List.mem_cons_of_mem _ hx) hc
          · rw [hp2] at hl
            simp only [List.length_cons] at hl ⊢
            omega

/-- Every node of a two-or-more-node walk is an edge endpoint. -/
theorem walk_nodes_subset (E : List (ℕ × ℕ)) :
    ∀ p : List ℕ, 2 ≤ p.length → (∀ e ∈ pathPairs p, e ∈ E) →
      ∀ x ∈ p, x ∈ nodesOf E := by
  intro p
  induction p with
  | nil => intro h2; simp at h2
  | cons a rest ih =>
      intro h2 hp x hx
      cases rest with
      | nil => simp at h2
      | cons b t =>
          have hab : (a, b) ∈ E := hp _
            (by rw [pathPairs_cons2]; exact List.mem_cons_self _ _)
          rcases List.mem_cons.mp hx with hx | hx
          · subst hx
            exact List.mem_append_left _ (List.mem_map.mpr ⟨(x, b), hab, rfl⟩)
          · cases t with
            | nil =>
                have hxb : x = b := by simpa using hx
                subst hxb
                exact List.mem_append_right _
                  (List.mem_map.mpr ⟨(a, x), hab, rfl⟩)
            | cons c t2 =>
                refine ih (by simp) ?_ x hx
                intro e he
                exact hp e
                  (by rw [pathPairs_cons2]; exact List.mem_cons_of_mem _ he)

/-- A duplicate-free walk fits in the enumeration fuel. -/
theorem walk_length_le (E : List (ℕ × ℕ)) (p : List ℕ) (hnd : p.Nodup)
    (hp : ∀ e ∈ pathPairs p, e ∈ E) :
    p.length ≤ (nodesOf E).length + 1 := by
  by_cases h2 : 2 ≤ p.length
  · have hsub := walk_nodes_subset E p h2 hp
    have := (hnd.subperm (fun x hx => hsub x hx)).length_le
    omega
  · omega

/-- `simplePaths` enumerates exactly the duplicate-free walks. -/
theorem simplePaths_spec (E : List (ℕ × ℕ)) (o d : ℕ) (p : List ℕ) :
    p ∈ simplePaths E o d ↔ IsWalk E o d p ∧ p.Nodup := by
  constructor
  · intro h
    obtain ⟨hw, hnd, _⟩ :=
      simplePathsAux_sound E d ((nodesOf E).length + 1) o [] p
        (List.not_mem_nil o) h
    exact ⟨hw, hnd⟩
  · rintro ⟨hw, hnd⟩
    exact simplePathsAux_complete E d ((nodesOf E).length + 1) p o []
      hw hnd (by intro x _ hc; cases hc)
      (walk_length_le E p hnd hw.2.2)

end Algorithms

namespace Algorithms

/-- The selection fold keeps a member of minimal measure (first minimal
wins ties). -/
theorem argmin_foldl (wf : List ℕ → ℚ) :
    ∀ (as : List (List ℕ)) (a : List ℕ),
      (as.foldl (fun best q => if wf q < wf best then q else best) a) ∈ a :: as
      ∧ wf (as.foldl (fun best q => if wf q < wf best then q else best) a) ≤ wf a
      ∧ ∀ q ∈ as,
          wf (as.foldl (fun best q => if wf q < wf best then q else best) a) ≤ wf q := by
  intro as
  induction as with
  | nil =>
      intro a
      refine ⟨List.mem_cons_self _ _, le_refl _, ?_⟩
      intro q hq
      cases hq
  | cons b bs ih =>
      intro a
      rw [List.foldl_cons]
      by_cases hb : wf b < wf a
      · rw [if_pos hb]
        obtain ⟨hmem, hle, hall⟩ := ih b
        refine ⟨?_, le_trans hle (le_of_lt hb), ?_⟩
        · rcases List.mem_cons.mp hmem with hm | hm
          · rw [hm]
            exact List.mem_cons_of_mem _ (List.mem_cons_self _ _)
          · exact List.mem_cons_of_mem _ (List.mem_cons_of_mem _ hm)
        · intro q hq
          rcases List.mem_cons.mp hq with hq | hq
          · rw [hq]
            exact hle
          · exact hall q hq
      · rw [if_neg hb]
        obtain ⟨hmem, hle, hall⟩ := ih a
        refine ⟨?_, hle, ?_⟩
        · rcases List.mem_cons.mp hmem with hm | hm
          · rw [hm]
            exact List.mem_cons_self _ _
          · exact List.mem_cons_of_mem _ (List.mem_cons_of_mem _ hm)
        · intro q hq
          rcases List.mem_cons.mp hq with hq | hq
          · rw [hq]
            exact le_trans hle (not_lt.mp hb)
          · exact hall q hq

/-- What a returned argmin satisfies. -/
theorem argminBy_spec (wf : List ℕ → ℚ) (l : List (List ℕ)) (p : List ℕ)
    (h : argminBy wf l = some p) : p ∈ l ∧ ∀ q ∈ l, wf p ≤ wf q := by
  cases l with
  | nil => cases h
  | cons a as =>
      have hp : as.foldl (fun best q => if wf q < wf best then q else best) a
          = p := by
        simpa [argminBy] using h
      obtain ⟨hmem, hle, hall⟩ := argmin_foldl wf as a
      rw [hp] at hmem hle hall
      refine ⟨hmem, ?_⟩
      intro q hq
      rcases List.mem_cons.mp hq with hq | hq
      · rw [hq]
        exact hle
      · exact hall q hq

/-- `argminBy` returns a value exactly on nonempty lists. -/
theorem argminBy_isSome (wf : List ℕ → ℚ) (l : List (List ℕ)) (hne : l ≠ []) :
    ∃ p, argminBy wf l = some p := by
  cases l with
  | nil => exact absurd rfl hne
  | cons a as => exact ⟨_, rfl⟩

/-- Splitting path pairs at an interior occurrence of a node. -/
theorem pathPairs_append (n : ℕ) :
    ∀ l1 l2 : List ℕ, pathPairs (l1 ++ n :: l2) =
      pathPairs (l1 ++ [n]) ++ pathPairs (n :: l2) := by
  intro l1
  induction l1 with
  | nil => intro l2; simp [pathPairs]
  | cons a t ih =>
      intro l2
      cases t with
      | nil => simp [pathPairs_cons2, pathPairs]
      | cons b t2 =>
          have h1 : (a :: b :: t2) ++ n :: l2 = a :: b :: (t2 ++ n :: l2) := rfl
          have h2 : (a :: b :: t2) ++ [n] = a :: b :: (t2 ++ [n]) := rfl
          rw [h1, h2, pathPairs_cons2, pathPairs_cons2]
          have h3 : b :: (t2 ++ n :: l2) = (b :: t2) ++ n :: l2 := rfl
          have h4 : b :: (t2 ++ [n]) = (b :: t2) ++ [n] := rfl
          rw [h3, h4, ih]
          simp

/-- Splitting a path's weight at an interior occurrence of a node. -/
theorem pathWeight_append (w : ℕ × ℕ → ℚ) (n : ℕ) (l1 l2 : List ℕ) :
    pathWeight w (l1 ++ n :: l2) =
      pathWeight w (l1 ++ [n]) + pathWeight w (n :: l2) := by
  unfold pathWeight
  rw [pathPairs_append n l1 l2, List.map_append, List.sum_append]

/-- A path through edges of non-negative weight has non-negative
weight. -/
theorem pathWeight_nonneg (E : List (ℕ × ℕ)) (w : ℕ × ℕ → ℚ)
    (hw : ∀ e ∈ E, 0 ≤ w e) (p : List ℕ)
    (hp : ∀ e ∈ pathPairs p, e ∈ E) : 0 ≤ pathWeight w p := by
  unfold pathWeight
  refine List.sum_nonneg ?_
  intro x hx
  obtain ⟨e, he, hex⟩ := List.mem_map.mp hx
  rw [← hex]
  exact hw e (hp e he)

/-- A duplicated node admits a split. -/
theorem exists_dup_split (p : List ℕ) (h : ¬ p.Nodup) :
    ∃ (xs : List ℕ) (n : ℕ) (ys zs : List ℕ),
      p = xs ++ (n :: (ys ++ (n :: zs))) := by
  induction p with
  | nil => simp at h
  | cons a t ih =>
      by_cases ha : a ∈ t
      · obtain ⟨ys, zs, ht⟩ := List.append_of_mem ha
        exact ⟨[], a, ys, zs, by rw [ht]; simp⟩
      · have hnt : ¬ t.Nodup := by
          intro hc
          exact h (List.nodup_cons.mpr ⟨ha, hc⟩)
        obtain ⟨xs, n, ys, zs, ht⟩ := ih hnt
        exact ⟨a :: xs, n, ys, zs, by rw [ht]; simp⟩

/-- The head of a list is unchanged past an interior node. -/
theorem head?_append_cons (l1 : List ℕ) (n : ℕ) (l2 l3 : List ℕ) :
    (l1 ++ n :: l2).head? = (l1 ++ n :: l3).head? := by
  cases l1 <;> rfl

/-- The last element only depends on the part after an interior node. -/
theorem getLast?_append_cons : ∀ (l1 : List ℕ) (n : ℕ) (l2 : List ℕ),
    (l1 ++ n :: l2).getLast? = (n :: l2).getLast? := by
  intro l1
  induction l1 with
  | nil => intro n l2; rfl
  | cons a t ih =>
      intro n l2
      cases t with
      | nil => rw [List.cons_append, List.nil_append, List.getLast?_cons_cons]
      | cons b t2 =>
          rw [List.cons_append, List.cons_append, List.getLast?_cons_cons,
            ← List.cons_append]
          exact ih n l2

end Algorithms

namespace Algorithms

/-- Cycle removal: every walk dominates a duplicate-free walk with the
same endpoints and no larger weight (weights non-negative). -/
theorem walk_to_simple_bounded (E : List (ℕ × ℕ)) (w : ℕ × ℕ → ℚ)
    (hw : ∀ e ∈ E, 0 ≤ w e) (o d : ℕ) :
    ∀ (k : ℕ) (p : List ℕ), p.length ≤ k → IsWalk E o d p →
      ∃ q, IsWalk E o d q ∧ q.Nodup ∧ pathWeight w q ≤ pathWeight w p := by
  intro k
  induction k with
  | zero =>
      intro p hl hp
      rw [List.eq_cons_of_mem_head? hp.1] at hl
      simp at hl
  | succ k ih =>
      intro p hl hp
      by_cases hnd : p.Nodup
      · exact ⟨p, hp, hnd, le_refl _⟩
      · obtain ⟨xs, n, ys, zs, hsplit⟩ := exists_dup_split p hnd
        have hp2walk : IsWalk E o d (xs ++ n :: zs) := by
          obtain ⟨hh, hlast, hpairs⟩ := hp
          refine ⟨?_, ?_, ?_⟩
          · rw [head?_append_cons xs n zs (ys ++ n :: zs), ← hsplit]
            exact hh
          · rw [getLast?_append_cons xs n zs]
            have h1 : p.getLast? = (n :: zs).getLast? := by
              rw [hsplit, getLast?_append_cons]
              have h2 : n :: (ys ++ n :: zs) = (n :: ys) ++ n :: zs := by simp
              rw [h2, getLast?_append_cons]
            rw [← h1]
            exact hlast
          · intro e he
            refine hpairs e ?_
            rw [hsplit, pathPairs_append n xs (ys ++ n :: zs)]
            rw [pathPairs_append n xs zs] at he
            rcases List.mem_append.mp he with he | he
            · exact List.mem_append_left _ he
            · apply List.mem_append_right
              have h2 : n :: (ys ++ n :: zs) = (n :: ys) ++ n :: zs := by simp
              rw [h2, pathPairs_append n (n :: ys) zs]
              exact List.mem_append_right _ he
        have hWle : pathWeight w (xs ++ n :: zs) ≤ pathWeight w p := by
          have hcyc : 0 ≤ pathWeight w ((n :: ys) ++ [n]) := by
            refine pathWeight_nonneg E w hw _ ?_
            intro e he
            refine hp.2.2 e ?_
            rw [hsplit, pathPairs_append n xs (ys ++ n :: zs)]
            apply List.mem_append_right
            have h2 : n :: (ys ++ n :: zs) = (n :: ys) ++ n :: zs := by simp
            rw [h2, pathPairs_append n (n :: ys) zs]
            exact List.mem_append_left _ he
          have hWp : pathWeight w p =
              pathWeight w (xs ++ [n]) + pathWeight w ((n :: ys) ++ [n])
                + pathWeight w (n :: zs) := by
            rw [hsplit, pathWeight_append w n xs (ys ++ n :: zs)]
            have h2 : n :: (ys ++ n :: zs) = (n :: ys) ++ n :: zs := by simp
            rw [h2, pathWeight_append w n (n :: ys) zs]
            ring
          have hWp2 : pathWeight w (xs ++ n :: zs) =
              pathWeight w (xs ++ [n]) + pathWeight w (n :: zs) :=
            pathWeight_append w n xs zs
          rw [hWp, hWp2]
          linarith
        have hlen : (xs ++ n :: zs).length ≤ k := by
          rw [hsplit] at hl
          simp only [List.length_append, List.length_cons] at hl ⊢
          omega
        obtain ⟨q, hq1, hq2, hq3⟩ := ih (xs ++ n :: zs) hlen hp2walk
        exact ⟨q, hq1, hq2, le_trans hq3 hWle⟩

/-- A returned shortest path is a duplicate-free walk of minimal weight
among duplicate-free walks. -/
theorem shortest_path_some_spec (E : List (ℕ × ℕ)) (w : ℕ × ℕ → ℚ)
    (o d : ℕ) (p : List ℕ) (h : shortest_path E w o d = some p) :
    IsWalk E o d p ∧ p.Nodup ∧
      ∀ q, IsWalk E o d q → q.Nodup → pathWeight w p ≤ pathWeight w q := by
  unfold shortest_path at h
  split at h
  case isTrue hmem =>
    obtain ⟨hmem2, hmin⟩ := argminBy_spec _ _ _ h
    rw [simplePaths_spec] at hmem2
    refine ⟨hmem2.1, hmem2.2, ?_⟩
    intro q hq hqnd
    exact hmin q ((simplePaths_spec E o d q).mpr ⟨hq, hqnd⟩)
  case isFalse => cases h

/-- With non-negative weights a returned shortest path is minimal over
all walks, not just the duplicate-free ones. -/
theorem shortest_path_minimal (E : List (ℕ × ℕ)) (w : ℕ × ℕ → ℚ)
    (hw : ∀ e ∈ E, 0 ≤ w e) (o d : ℕ) (p : List ℕ)
    (h : shortest_path E w o d = some p) (q : List ℕ)
    (hq : IsWalk E o d q) : pathWeight w p ≤ pathWeight w q := by
  obtain ⟨q2, hq2w, hq2nd, hq2le⟩ :=
    walk_to_simple_bounded E w hw o d q.length q (le_refl _) hq
  exact le_trans
    ((shortest_path_some_spec E w o d p h).2.2 q2 hq2w hq2nd) hq2le

/-- No walk: the query reports `none` (the `NetworkXNoPath` branch of
the callers' `except`). -/
theorem shortest_path_none_of_no_walk (E : List (ℕ × ℕ)) (w : ℕ × ℕ → ℚ)
    (o d : ℕ) (h : ¬ ∃ p, IsWalk E o d p) :
    shortest_path E w o d = none := by
  unfold shortest_path
  split
  · have hnil : simplePaths E o d = [] := by
      cases hsp : simplePaths E o d with
      | nil => rfl
      | cons a as =>
          exfalso
          refine h ⟨a, ?_⟩
          have ha : a ∈ simplePaths E o d := by
            rw [hsp]
            exact List.mem_cons_self _ _
          exact ((simplePaths_spec E o d a).mp ha).1
    rw [hnil]
    rfl
  · rfl

/-- Missing endpoint: the query reports `none` (the `NodeNotFound`
branch of the callers' `except`). -/
theorem shortest_path_none_of_not_node (E : List (ℕ × ℕ))
    (w : ℕ × ℕ → ℚ) (o d : ℕ)
    (h : o ∉ nodesOf E ∨ d ∉ nodesOf E) :
    shortest_path E w o d = none := by
  unfold shortest_path
  rw [if_neg]
  rintro ⟨ho, hd⟩
  rcases h with h | h
  · exact h ho
  · exact h hd

/-- A walk with at least one edge guarantees the query succeeds. -/
theorem shortest_path_some_of_walk (E : List (ℕ × ℕ)) (w : ℕ × ℕ → ℚ)
    (o d : ℕ) (q : List ℕ) (hq : IsWalk E o d q) (h2 : 2 ≤ q.length) :
    ∃ p, shortest_path E w o d = some p := by
  have hsub := walk_nodes_subset E q h2 hq.2.2
  have ho : o ∈ nodesOf E := by
    refine hsub o ?_
    rw [List.eq_cons_of_mem_head? hq.1]
    exact List.mem_cons_self _ _
  have hd : d ∈ nodesOf E := by
    obtain ⟨hne2, heq⟩ := List.mem_getLast?_eq_getLast hq.2.1
    refine hsub d ?_
    rw [heq]
    exact List.getLast_mem hne2
  obtain ⟨q2, hq2w, hq2nd, _⟩ :=
    walk_to_simple_bounded E (fun _ => 0) (by intro e _; exact le_refl 0)
      o d q.length q (le_refl _) hq
  have hmem : q2 ∈ simplePaths E o d :=
    (simplePaths_spec E o d q2).mpr ⟨hq2w, hq2nd⟩
  have hne : simplePaths E o d ≠ [] := by
    intro hc
    rw [hc] at hmem
    cases hmem
  unfold shortest_path
  rw [if_pos ⟨ho, hd⟩]
  exact argminBy_isSome _ _ hne

end Algorithms


namespace Algorithms

/-- `idxOf` fails exactly off the list. -/
theorem idxOf_none_iff (E : List (ℕ × ℕ)) (e : ℕ × ℕ) :
    idxOf E e = none ↔ e ∉ E := by
  induction E with
  | nil => simp [idxOf]
  | cons x xs ih =>
      by_cases hx : x = e
      · simp [idxOf, hx]
      · simp only [idxOf, if_neg hx, Option.map_eq_none', ih, List.mem_cons]
        constructor
        · intro hn hc
          rcases hc with hc | hc
          · exact hx hc.symm
          · exact hn hc
        · intro hn
          exact fun hc => hn (Or.inr hc)

/-- A found index is in range and points at the edge. -/
theorem idxOf_some_get (E : List (ℕ × ℕ)) (e : ℕ × ℕ) :
    ∀ j : ℕ, idxOf E e = some j →
      ∃ hj : j < E.length, E.get ⟨j, hj⟩ = e := by
  induction E with
  | nil => intro j h; cases h
  | cons x xs ih =>
      intro j h
      by_cases hx : x = e
      · rw [idxOf, if_pos hx] at h
        have hj0 : j = 0 := by
          cases h
          rfl
        subst hj0
        exact ⟨by simp, hx⟩
      · rw [idxOf, if_neg hx] at h
        rcases h2 : idxOf xs e with _ | j2
        · rw [h2] at h
          cases h
        · rw [h2] at h
          have hjj : j = j2 + 1 := by
            cases h
            rfl
          subst hjj
          obtain ⟨hj2, hget⟩ := ih j2 h2
          exact ⟨by simpa using hj2, hget⟩

/-- On a duplicate-free list, the edge at position `i` indexes to `i`. -/
theorem idxOf_of_get (E : List (ℕ × ℕ)) (hnd : E.Nodup) :
    ∀ (i : ℕ) (hi : i < E.length), idxOf E (E.get ⟨i, hi⟩) = some i := by
  induction E with
  | nil => intro i hi; simp at hi
  | cons x xs ih =>
      intro i hi
      rw [List.nodup_cons] at hnd
      cases i with
      | zero => simp [idxOf]
      | succ i2 =>
          have hget : (x :: xs).get ⟨i2 + 1, hi⟩ = xs.get ⟨i2, by simpa using hi⟩ :=
            rfl
          rw [hget, idxOf, if_neg ?_, ih hnd.2 i2 (by simpa using hi)]
          · rfl
          · intro hc
            exact hnd.1 (by rw [hc]; exact List.get_mem _ _ _)

/-- Componentwise effect of one bump. -/
theorem bumpAt_getD (y : List ℚ) :
    ∀ (j : ℕ) (q : ℚ) (i : ℕ),
      (bumpAt y j q).getD i 0 =
        y.getD i 0 + (if i = j ∧ j < y.length then q else 0) := by
  induction y with
  | nil => intro j q i; simp [bumpAt]
  | cons x xs ih =>
      intro j q i
      cases j with
      | zero =>
          cases i with
          | zero => simp [bumpAt]
          | succ i2 => simp [bumpAt]
      | succ j2 =>
          cases i with
          | zero => simp [bumpAt]
          | succ i2 =>
              simp only [bumpAt, List.getD_cons_succ, ih j2 q i2,
                List.length_cons]
              congr 1
              by_cases hc : i2 = j2 ∧ j2 < xs.length
              · rw [if_pos hc, if_pos ⟨by omega, by omega⟩]
              · rw [if_neg hc, if_neg (by omega)]

/-- Componentwise effect of bumping the (unique) index of each edge in
a duplicate-free pair list. -/
theorem foldl_bump_getD (E : List (ℕ × ℕ)) (hE : E.Nodup) (q : ℚ) :
    ∀ (ps : List (ℕ × ℕ)), ps.Nodup → (∀ e ∈ ps, e ∈ E) →
      ∀ (y : List ℚ), y.length = E.length →
      ∀ (i : ℕ) (hi : i < E.length),
      ((ps.foldl (fun y2 e => match idxOf E e with
          | some j => bumpAt y2 j q
          | none => y2) y).getD i 0)
        = y.getD i 0 + (if E.get ⟨i, hi⟩ ∈ ps then q else 0) := by
  intro ps
  induction ps with
  | nil =>
      intro _ _ y _ i hi
      simp
  | cons e ps ih =>
      intro hnd hsub y hylen i hi
      rw [List.nodup_cons] at hnd
      obtain ⟨j, hj⟩ : ∃ j, idxOf E e = some j := by
        rcases h : idxOf E e with _ | j
        · exact absurd (hsub e (List.mem_cons_self _ _)) ((idxOf_none_iff E e).mp h)
        · exact ⟨j, rfl⟩
      obtain ⟨hjlt, hjget⟩ := idxOf_some_get E e j hj
      simp only [List.foldl_cons, hj]
      rw [ih hnd.2 (fun e2 he2 => hsub e2 (List.mem_cons_of_mem _ he2))
        (bumpAt y j q) (by rw [bumpAt_length]; exact hylen) i hi]
      rw [bumpAt_getD]
      by_cases hcase : E.get ⟨i, hi⟩ = e
      · have hij : i = j := by
          have : E.get ⟨i, hi⟩ = E.get ⟨j, hjlt⟩ := by rw [hjget, hcase]
          exact Fin.mk.injEq .. ▸ (List.Nodup.get_inj_iff hE).mp this
        have hmem1 : E.get ⟨i, hi⟩ ∈ e :: ps := by
          rw [hcase]
          exact List.mem_cons_self _ _
        have hmem2 : E.get ⟨i, hi⟩ ∉ ps := by
          rw [hcase]
          exact hnd.1
        rw [if_pos hmem1, if_pos ⟨hij, by omega⟩, if_neg hmem2]
        ring
      · have hij : ¬ (i = j ∧ j < y.length) := by
          rintro ⟨rfl, _⟩
          exact hcase hjget
        have hmem : (E.get ⟨i, hi⟩ ∈ e :: ps) ↔ (E.get ⟨i, hi⟩ ∈ ps) := by
          rw [List.mem_cons]
          constructor
          · rintro (hc | hc)
            · exact absurd hc hcase
            · exact hc
          · exact Or.inr
        rw [if_neg hij]
        by_cases hmm : E.get ⟨i, hi⟩ ∈ ps
        · rw [if_pos hmm, if_pos (hmem.mpr hmm)]
          ring
        · rw [if_neg hmm, if_neg (fun hc => hmm (hmem.mp hc))]
          ring

end Algorithms

namespace Algorithms

/-- The zero vector is zero everywhere. -/
theorem zeros_getD (m i : ℕ) : (zeros m).getD i 0 = 0 := by
  unfold zeros
  induction m generalizing i with
  | zero => simp
  | succ m ih =>
      cases i with
      | zero => simp
      | succ i2 =>
          rw [List.replicate_succ, List.getD_cons_succ]
          exact ih i2

/-- Non-negative costs give non-negative auxiliary weights. -/
theorem wOf_nonneg (E : List (ℕ × ℕ)) (costs : List ℚ)
    (hcnn : ∀ c ∈ costs, 0 ≤ c) : ∀ e ∈ E, 0 ≤ wOf E costs e := by
  intro e _
  unfold wOf
  rcases h : idxOf E e with _ | i
  · exact le_refl 0
  · show 0 ≤ costs.getD i 0
    by_cases hi : i < costs.length
    · rw [List.getD_eq_getElem _ _ hi]
      exact hcnn _ (List.getElem_mem hi)
    · rw [List.getD_eq_default _ _ (by omega)]

/-- Componentwise value of the AON vector: each demand contributes its
full quantity on every edge of its chosen shortest path, nothing
elsewhere and nothing when no path was found. -/
theorem aon_getD (E : List (ℕ × ℕ)) (hE : E.Nodup) (costs : List ℚ)
    (demands : List (ℕ × ℕ × ℚ)) (i : ℕ) (hi : i < E.length) :
    (aon E costs demands).getD i 0 =
      (demands.map (fun dem =>
        match shortest_path E (wOf E costs) dem.1 dem.2.1 with
        | some p => if E.get ⟨i, hi⟩ ∈ pathPairs p then dem.2.2 else 0
        | none => 0)).sum := by
  unfold aon
  have h : ∀ (ds : List (ℕ × ℕ × ℚ)) (y : List ℚ), y.length = E.length →
      ((ds.foldl (fun y dem =>
          match shortest_path E (wOf E costs) dem.1 dem.2.1 with
          | some p => addAlong E y p dem.2.2
          | none => y) y).getD i 0)
        = y.getD i 0 + (ds.map (fun dem =>
            match shortest_path E (wOf E costs) dem.1 dem.2.1 with
            | some p => if E.get ⟨i, hi⟩ ∈ pathPairs p then dem.2.2 else 0
            | none => 0)).sum := by
    intro ds
    induction ds with
    | nil =>
        intro y _
        simp
    | cons dem rest ihd =>
        intro y hy
        rw [List.foldl_cons, List.map_cons, List.sum_cons]
        rcases hsp : shortest_path E (wOf E costs) dem.1 dem.2.1 with _ | p
        · simp only [hsp]
          rw [ihd y hy]
          ring
        · simp only [hsp]
          obtain ⟨hw, hnd, _⟩ := shortest_path_some_spec E _ _ _ p hsp
          rw [ihd (addAlong E y p dem.2.2)
            (by rw [addAlong_length]; exact hy)]
          unfold addAlong
          rw [foldl_bump_getD E hE dem.2.2 (pathPairs p)
            (pathPairs_nodup p hnd) hw.2.2 y hy i hi]
          ring
  rw [h demands (zeros E.length) (by simp [zeros]), zeros_getD]
  ring

/-- Out-of-range components of the AON vector default to zero. -/
theorem aon_getD_oob (E : List (ℕ × ℕ)) (costs : List ℚ)
    (demands : List (ℕ × ℕ × ℚ)) (i : ℕ) (hi : ¬ i < E.length) :
    (aon E costs demands).getD i 0 = 0 := by
  rw [List.getD_eq_default]
  rw [aon_length]
  omega

end Algorithms

namespace Algorithms

/-- Claim C6 (confirmed): for non-negative costs and demands, `aon`
(i) gives each edge the sum, over the demands whose shortest-path query
succeeded, of the demand quantity when the edge lies on that chosen
path — i.e. exactly `q` per demand whose chosen path uses the edge;
(ii) each chosen path is a minimum-total-weight walk for its OD pair;
(iii) a demand connected by some walk with at least one edge is never
skipped; (iv) an edge on no chosen path carries exactly 0; and (v) the
whole vector is non-negative. -/
theorem claim6_aon_loading (E : List (ℕ × ℕ)) (costs : List ℚ)
    (demands : List (ℕ × ℕ × ℚ)) (hE : E.Nodup)
    (hcnn : ∀ c ∈ costs, 0 ≤ c)
    (hq : ∀ dem ∈ demands, 0 ≤ dem.2.2) :
    (∀ (i : ℕ) (hi : i < E.length),
      (aon E costs demands).getD i 0 =
        (demands.map (fun dem =>
          match shortest_path E (wOf E costs) dem.1 dem.2.1 with
          | some p => if E.get ⟨i, hi⟩ ∈ pathPairs p then dem.2.2 else 0
          | none => 0)).sum)
    ∧ (∀ (dem : ℕ × ℕ × ℚ) (p : List ℕ),
        shortest_path E (wOf E costs) dem.1 dem.2.1 = some p →
        IsWalk E dem.1 dem.2.1 p ∧ p.Nodup ∧
          ∀ q2, IsWalk E dem.1 dem.2.1 q2 →
            pathWeight (wOf E costs) p ≤ pathWeight (wOf E costs) q2)
    ∧ (∀ dem : ℕ × ℕ × ℚ,
        ∀ q2, IsWalk E dem.1 dem.2.1 q2 → 2 ≤ q2.length →
          ∃ p, shortest_path E (wOf E costs) dem.1 dem.2.1 = some p)
    ∧ (∀ (i : ℕ) (hi : i < E.length),
        (∀ dem ∈ demands, ∀ p,
          shortest_path E (wOf E costs) dem.1 dem.2.1 = some p →
          E.get ⟨i, hi⟩ ∉ pathPairs p) →
        (aon E costs demands).getD i 0 = 0)
    ∧ (∀ i : ℕ, 0 ≤ (aon E costs demands).getD i 0) := by
  have hwnn := wOf_nonneg E costs hcnn
  refine ⟨aon_getD E hE costs demands, ?_, ?_, ?_, ?_⟩
  · intro dem p hsp
    obtain ⟨hw, hnd, _⟩ := shortest_path_some_spec E _ _ _ p hsp
    exact ⟨hw, hnd,
      fun q2 hq2 => shortest_path_minimal E _ hwnn _ _ p hsp q2 hq2⟩
  · intro dem q2 hq2 h2
    exact shortest_path_some_of_walk E _ _ _ q2 hq2 h2
  · intro i hi hnone
    rw [aon_getD E hE costs demands i hi]
    refine List.sum_eq_zero ?_
    intro x hx
    obtain ⟨dem, hdem, hfx⟩ := List.mem_map.mp hx
    rw [← hfx]
    rcases hsp : shortest_path E (wOf E costs) dem.1 dem.2.1 with _ | p
    · rfl
    · show (if E.get ⟨i, hi⟩ ∈ pathPairs p then dem.2.2 else 0) = 0
      rw [if_neg (hnone dem hdem p hsp)]
  · intro i
    by_cases hi : i < E.length
    · rw [aon_getD E hE costs demands i hi]
      refine List.sum_nonneg ?_
      intro x hx
      obtain ⟨dem, hdem, hfx⟩ := List.mem_map.mp hx
      rw [← hfx]
      rcases hsp : shortest_path E (wOf E costs) dem.1 dem.2.1 with _ | p
      · exact le_refl 0
      · show 0 ≤ if E.get ⟨i, hi⟩ ∈ pathPairs p then dem.2.2 else 0
        by_cases hm : E.get ⟨i, hi⟩ ∈ pathPairs p
        · rw [if_pos hm]
          exact hq dem hdem
        · rw [if_neg hm]
    · rw [aon_getD_oob E costs demands i hi]

/-- Witness for `claim6_aon_loading` on a one-edge network with cost 2
and a single demand of 5. -/
theorem claim6_witness :
    ([((0 : ℕ), (1 : ℕ))] : List (ℕ × ℕ)).Nodup ∧
      (∀ c ∈ ([2] : List ℚ), 0 ≤ c) ∧
      (∀ dem ∈ ([((0 : ℕ), (1 : ℕ), (5 : ℚ))] : List (ℕ × ℕ × ℚ)),
        0 ≤ dem.2.2) ∧
      (∀ (i : ℕ) (hi : i < ([((0 : ℕ), (1 : ℕ))] : List (ℕ × ℕ)).length),
        (aon [(0, 1)] [2] [(0, 1, 5)]).getD i 0 =
          (([((0 : ℕ), (1 : ℕ), (5 : ℚ))].map (fun dem =>
            match shortest_path [(0, 1)] (wOf [(0, 1)] [2]) dem.1 dem.2.1 with
            | some p =>
                if ([((0 : ℕ), (1 : ℕ))].get ⟨i, hi⟩) ∈ pathPairs p
                then dem.2.2 else 0
            | none => 0)).sum)) :=
  ⟨by decide, by decide, by decide,
   (claim6_aon_loading [(0, 1)] [2] [(0, 1, 5)] (by decide) (by decide)
     (by decide)).1⟩

/-- Claim C8 (confirmed): a demand with no path is silently skipped by
`aon` — removing it from the demand list leaves the candidate vector
unchanged — and `compute_od_travel_times` reports `none` (not zero, not
an error) for every entry carrying that OD pair. -/
theorem claim8_no_path_tolerated (net : Net) (costs : List ℚ)
    (demands ds1 ds2 : List (ℕ × ℕ × ℚ)) (o d : ℕ) (q : ℚ)
    (h : ¬ ∃ p, IsWalk net.edges o d p) :
    aon net.edges costs (ds1 ++ (o, d, q) :: ds2) =
      aon net.edges costs (ds1 ++ ds2)
    ∧ ∀ entry ∈ compute_od_travel_times net demands,
        entry.1 = (o, d) → entry.2 = none := by
  have hsp : ∀ w2 : ℕ × ℕ → ℚ, shortest_path net.edges w2 o d = none :=
    fun w2 => shortest_path_none_of_no_walk net.edges w2 o d h
  constructor
  · unfold aon
    rw [List.foldl_append, List.foldl_append, List.foldl_cons, hsp]
  · intro entry hentry heq
    obtain ⟨dem, hdem, hfe⟩ := List.mem_map.mp hentry
    have h1 : entry.1 = (dem.1, dem.2.1) := by rw [← hfe]
    rw [heq] at h1
    have ho : dem.1 = o := by
      have := congrArg Prod.fst h1
      simpa using this.symm
    have hd : dem.2.1 = d := by
      have := congrArg Prod.snd h1
      simpa using this.symm
    have h2 : entry.2 =
        match shortest_path net.edges
            (fun e => net.cost e (net.flow e)) dem.1 dem.2.1 with
        | some p => some (((pathPairs p).map
            (fun e => net.cost e (net.flow e))).sum)
        | none => none := by rw [← hfe]
    rw [ho, hd, hsp] at h2
    exact h2

/-- Witness for `claim8_no_path_tolerated`: the demand `(1, 0, 5)` on
the one-edge network `netW` (whose only edge runs 0 → 1). -/
theorem claim8_witness :
    aon netW.edges [2] ([] ++ (1, 0, 5) :: []) = aon netW.edges [2] ([] ++ [])
    ∧ ∀ entry ∈ compute_od_travel_times netW [(1, 0, 5)],
        entry.1 = (1, 0) → entry.2 = none := by
  have hno : ¬ ∃ p, IsWalk netW.edges 1 0 p := by
    rintro ⟨p, hh, hl, hp⟩
    rcases p with _ | ⟨a, t⟩
    · cases hh
    · have ha : a = 1 := by simpa using hh
      rcases t with _ | ⟨b, t2⟩
      · have : a = 0 := by simpa using hl
        omega
      · have hpair : (a, b) ∈ netW.edges := hp _
          (by rw [pathPairs_cons2]; exact List.mem_cons_self _ _)
        have hab : (a, b) = (0, 1) := by simpa [netW] using hpair
        have : a = 0 := by
          have := congrArg Prod.fst hab
          simpa using this
        omega
  exact claim8_no_path_tolerated netW [2] [(1, 0, 5)] [] [] 1 0 5 hno

/-- Claim C10 (confirmed): a demand whose origin or destination is not
a node of the auxiliary graph at all behaves exactly like a no-path
demand — the node-not-found failure is caught by the same bare
`except`, the demand contributes nothing to the candidate vector, and
the travel-time report maps the pair to `none`. -/
theorem claim10_missing_node (net : Net) (costs : List ℚ)
    (demands ds1 ds2 : List (ℕ × ℕ × ℚ)) (o d : ℕ) (q : ℚ)
    (h : o ∉ nodesOf net.edges ∨ d ∉ nodesOf net.edges) :
    aon net.edges costs (ds1 ++ (o, d, q) :: ds2) =
      aon net.edges costs (ds1 ++ ds2)
    ∧ ∀ entry ∈ compute_od_travel_times net demands,
        entry.1 = (o, d) → entry.2 = none := by
  have hsp : ∀ w2 : ℕ × ℕ → ℚ, shortest_path net.edges w2 o d = none :=
    fun w2 => shortest_path_none_of_not_node net.edges w2 o d h
  constructor
  · unfold aon
    rw [List.foldl_append, List.foldl_append, List.foldl_cons, hsp]
  · intro entry hentry heq
    obtain ⟨dem, hdem, hfe⟩ := List.mem_map.mp hentry
    have h1 : entry.1 = (dem.1, dem.2.1) := by rw [← hfe]
    rw [heq] at h1
    have ho : dem.1 = o := by
      have := congrArg Prod.fst h1
      simpa using this.symm
    have hd : dem.2.1 = d := by
      have := congrArg Prod.snd h1
      simpa using this.symm
    have h2 : entry.2 =
        match shortest_path net.edges
            (fun e => net.cost e (net.flow e)) dem.1 dem.2.1 with
        | some p => some (((pathPairs p).map
            (fun e => net.cost e (net.flow e))).sum)
        | none => none := by rw [← hfe]
    rw [ho, hd, hsp] at h2
    exact h2

/-- Witness for `claim10_missing_node`: node 7 is not an endpoint of
any edge of `netW`. -/
theorem claim10_witness :
    aon netW.edges [2] ([] ++ (7, 1, 5) :: []) = aon netW.edges [2] ([] ++ [])
    ∧ ∀ entry ∈ compute_od_travel_times netW [(7, 1, 5)],
        entry.1 = (7, 1) → entry.2 = none :=
  claim10_missing_node netW [2] [(7, 1, 5)] [] [] 7 1 5 (by decide)

end Algorithms
